import Mathlib

/-!
Verification of the path-intake engine of the `takein` repository
(`src/main.go`): the separator/key tokenizer (`parseEnvs`), the
destination-pattern resolver (`destDirectory`), the intake analyzer
(`Program.AnalyzeInput`) and the materializer (`Program.Copy`).

The Go code is shallowly embedded: strings are Lean `String`s (manipulated
through their `List Char` contents), Go maps are association lists with
overwrite-on-insert (`goInsert`) and lookup (`goLookup`) — every theorem
only observes maps through `goLookup`, so the arbitrary iteration order of
Go maps is immaterial — and the filesystem is an oracle structure supplied
as an argument.  Loops that consume a string are written with an explicit
fuel argument (always called with fuel > length of the input, for which the
result is proved independent of the fuel) so that every definition is
structurally recursive and computable.
-/

namespace Takein

instance exceptDecEq {ε α : Type} [DecidableEq ε] [DecidableEq α] :
    DecidableEq (Except ε α) := fun x y =>
  match x, y with
  | .error a, .error b =>
    if h : a = b then isTrue (by rw [h])
    else isFalse (fun he => by cases he; exact h rfl)
  | .error _, .ok _ => isFalse (fun he => Except.noConfusion he)
  | .ok _, .error _ => isFalse (fun he => Except.noConfusion he)
  | .ok a, .ok b =>
    if h : a = b then isTrue (by rw [h])
    else isFalse (fun he => by cases he; exact h rfl)

/-! ## Go string primitives used by the tokenizer -/

/-- `unicode.IsSpace` for the code points that can appear in separator
configuration strings (Go's white-space class). -/
def goIsSpace (c : Char) : Bool :=
  c = ' ' || c = '\t' || c = '\n' || c = (Char.ofNat 11) || c = (Char.ofNat 12) ||
  c = '\r' || c = (Char.ofNat 0x85) || c = (Char.ofNat 0xA0) ||
  c = (Char.ofNat 0x1680) || (Char.ofNat 0x2000 ≤ c && c ≤ Char.ofNat 0x200A) ||
  c = (Char.ofNat 0x2028) || c = (Char.ofNat 0x2029) || c = (Char.ofNat 0x202F) ||
  c = (Char.ofNat 0x205F) || c = (Char.ofNat 0x3000)

/-- `strings.TrimSpace`: remove leading and trailing white space. -/
def goTrimSpace (s : String) : String :=
  String.mk (((s.data.dropWhile goIsSpace).reverse.dropWhile goIsSpace).reverse)

/-- `strings.Index sub` on character lists: position of the first occurrence
of `sub`, `none` when `sub` does not occur (Go returns `-1`). -/
def goIndexL (l sub : List Char) : Option Nat :=
  match l with
  | [] => if sub = [] then some 0 else none
  | _ :: rest =>
    if sub.isPrefixOf l then some 0
    else (goIndexL rest sub).map (· + 1)

/-- Association-list insertion with Go map semantics: overwrite the entry
when the key is present, append it otherwise. -/
def goInsert {α : Type} (m : List (String × α)) (k : String) (v : α) :
    List (String × α) :=
  if m.any (fun p => p.1 = k) then
    m.map (fun p => if p.1 = k then (k, v) else p)
  else m ++ [(k, v)]

/-- Association-list lookup (Go map read). -/
def goLookup {α : Type} : List (String × α) → String → Option α
  | [], _ => none
  | p :: rest, k => if p.1 = k then some p.2 else goLookup rest k

/-! ## The tokenizer's splitting loop (`parseEnvs`, first half)

One iteration of the Go loop scans all separators and keeps the one whose
occurrence in the remaining suffix is earliest (`idx`, `cutter`); separators
that are entirely white space are skipped. -/

/-- One candidate separator against the current best cut `acc`: white-space
separators are skipped, and a separator replaces `acc` exactly when it
occurs strictly earlier (`i < 0 || i >= idx` is the Go skip condition). -/
def cutStep (remain : List Char) (acc : Nat × List Char) (sep : String) :
    Nat × List Char :=
  if goTrimSpace sep = "" then acc
  else
    match goIndexL remain sep.data with
    | none => acc
    | some i => if acc.1 ≤ i then acc else (i, sep.data)

/-- One scan over the separator list, starting from `(len remain, "")`. -/
def findCut (remain : List Char) (seps : List String) : Nat × List Char :=
  seps.foldl (cutStep remain) (remain.length, [])

/-- The splitting loop: while the remainder is non-empty, cut the fragment
before the best separator occurrence and advance past the separator.  Each
produced pair is `(fragment, separator consumed)`; the final fragment, when
it is produced by finding no separator, carries `[]`.  `fuel` only bounds
the iteration count (each iteration consumes at least one character). -/
def goSplitAux (seps : List String) : Nat → List Char → List (List Char × List Char)
  | 0, _ => []
  | _ + 1, [] => []
  | fuel + 1, a :: rest =>
    ((a :: rest).take (findCut (a :: rest) seps).1, (findCut (a :: rest) seps).2) ::
      goSplitAux seps fuel
        ((a :: rest).drop ((findCut (a :: rest) seps).1 + (findCut (a :: rest) seps).2.length))

/-- The fragments-with-cutters sequence the tokenizer produces for `src`. -/
def goSplitIter (src : String) (seps : List String) : List (List Char × List Char) :=
  goSplitAux seps (src.data.length + 1) src.data

/-- The ordered fragment list (`vals` in the Go code). -/
def goSplitVals (src : String) (seps : List String) : List String :=
  (goSplitIter src seps).map (fun p => String.mk p.1)

/-- The number of separator occurrences the splitting loop consumed. -/
def goSepCount (src : String) (seps : List String) : Nat :=
  ((goSplitIter src seps).filter (fun p => ¬ p.2 = [])).length

/-! ## Key binding (`parseEnvs`, second half) -/

/-- The first binding loop of `parseEnvs`: `envs[leftKeys[i]] = vals[i]`
for `i` ranging over the left keys, skipping `_`.  The Go code only indexes
`vals` inside the bounds established by the count checks, so the `getD`
default is never used. -/
def bindLeftFold (leftKeys vals : List String) (e0 : List (String × String)) :
    List (String × String) :=
  (List.range leftKeys.length).foldl
    (fun e i =>
      if leftKeys.getD i "" = "_" then e
      else goInsert e (leftKeys.getD i "") (vals.getD i "")) e0

/-- The second binding loop of `parseEnvs`: indexes from the right,
`envs[rightKeys[len-1-i]] = vals[len(vals)-1-i]`, skipping `_`. -/
def bindRightFold (rightKeys vals : List String) (e0 : List (String × String)) :
    List (String × String) :=
  (List.range rightKeys.length).foldl
    (fun e i =>
      if rightKeys.getD (rightKeys.length - 1 - i) "" = "_" then e
      else goInsert e (rightKeys.getD (rightKeys.length - 1 - i) "")
        (vals.getD (vals.length - 1 - i) "")) e0

/-- Both binding loops in order: left keys first, then right keys. -/
def bindKeys (leftKeys rightKeys vals : List String) : List (String × String) :=
  bindRightFold rightKeys vals (bindLeftFold leftKeys vals [])

/-- Index of the first wildcard divider `...` in the key list (the `idx`
variable of the Go scan). -/
def dividerIdx : List String → Option Nat
  | [] => none
  | k :: rest =>
    if k = "..." then some 0
    else (dividerIdx rest).map (· + 1)

/-- `parseEnvs(src, seps, keys)`: split `src`, locate the wildcard divider
`...` (more than one is an error, checked first), enforce the fragment
count rules, and bind fragments to keys. -/
def parseEnvs (src : String) (seps keys : List String) :
    Except String (List (String × String)) :=
  if 2 ≤ (keys.filter (fun k => k = "...")).length then
    .error "multiple key divider (...) is not allowed"
  else
    match dividerIdx keys with
    | none =>
      if keys.length < (goSplitVals src seps).length then
        .error ("too many values for keys: " ++ src)
      else if (goSplitVals src seps).length < keys.length then
        .error ("not enough values for keys: " ++ src)
      else .ok (bindKeys keys [] (goSplitVals src seps))
    | some idx =>
      if (goSplitVals src seps).length < keys.length - 1 then
        .error ("not enough values for keys: " ++ src)
      else .ok (bindKeys (keys.take idx) (keys.drop (idx + 1)) (goSplitVals src seps))

/-! ## The destination resolver (`destDirectory`)

`destDirectory` trims the pattern and expands it with Go's `os.Expand`,
recording every reference whose name is missing from the environment in the
`unknown` variable (each recording overwrites the previous one). -/

/-- `strings.HasPrefix` on the character contents. -/
def goHasPrefix (s pre : String) : Bool :=
  pre.data.isPrefixOf s.data

/-- `isShellSpecialVar` from Go's `os` package. -/
def isShellSpecialVar (c : Char) : Bool :=
  c = '*' || c = '#' || c = '$' || c = '@' || c = '!' || c = '?' || c = '-' ||
  ('0' ≤ c && c ≤ '9')

/-- `isAlphaNum` from Go's `os` package. -/
def isAlphaNum (c : Char) : Bool :=
  c = '_' || ('0' ≤ c && c ≤ '9') || ('a' ≤ c && c ≤ 'z') || ('A' ≤ c && c ≤ 'Z')

/-- `getShellName` from Go's `os` package, on the characters following a
`$`: returns the referenced name and the number of characters consumed. -/
def getShellName : List Char → List Char × Nat
  | [] => ([], 0)
  | '{' :: rest =>
    match rest with
    | c :: '}' :: _ =>
      if isShellSpecialVar c then ([c], 3)
      else
        match rest.findIdx? (fun d => d = '}') with
        | some j => if j = 0 then ([], 2) else (rest.take j, j + 2)
        | none => ([], 1)
    | _ =>
      match rest.findIdx? (fun d => d = '}') with
      | some j => if j = 0 then ([], 2) else (rest.take j, j + 2)
      | none => ([], 1)
  | c :: rest =>
    if isShellSpecialVar c then ([c], 1)
    else
      let name := (c :: rest).takeWhile isAlphaNum
      (name, name.length)

/-- `os.Expand` specialised to the callback `destDirectory` passes: look the
name up in `env`; when it is absent substitute `""` and overwrite the
`unknown` accumulator (second component) with `"$" ++ name`.  `fuel` bounds
the iteration count; each step consumes at least one character. -/
def goExpandAux (env : List (String × String)) :
    Nat → List Char → String → List Char × String
  | 0, _, unk => ([], unk)
  | _ + 1, [], unk => ([], unk)
  | fuel + 1, c :: rest, unk =>
    if c = '$' ∧ rest ≠ [] then
      let nw := getShellName rest
      if nw.1 = [] ∧ 0 < nw.2 then
        goExpandAux env fuel (rest.drop nw.2) unk
      else if nw.1 = [] then
        let r := goExpandAux env fuel rest unk
        ('$' :: r.1, r.2)
      else
        match goLookup env (String.mk nw.1) with
        | some v =>
          let r := goExpandAux env fuel (rest.drop nw.2) unk
          (v.data ++ r.1, r.2)
        | none =>
          goExpandAux env fuel (rest.drop nw.2) ("$" ++ String.mk nw.1)
    else
      let r := goExpandAux env fuel rest unk
      (c :: r.1, r.2)

/-- Expansion of a whole pattern: returns the expanded text and the final
`unknown` value (empty when every reference resolved). -/
def goExpand (env : List (String × String)) (pat : String) : List Char × String :=
  goExpandAux env (pat.data.length + 1) pat.data ""

/-- The variable references of a pattern, in left-to-right scanning order
(the names `os.Expand` passes to its callback). -/
def expandRefs : Nat → List Char → List String
  | 0, _ => []
  | _ + 1, [] => []
  | fuel + 1, c :: rest =>
    if c = '$' ∧ rest ≠ [] then
      let nw := getShellName rest
      if nw.1 = [] ∧ 0 < nw.2 then expandRefs fuel (rest.drop nw.2)
      else if nw.1 = [] then expandRefs fuel rest
      else String.mk nw.1 :: expandRefs fuel (rest.drop nw.2)
    else expandRefs fuel rest

/-- The references of the (trimmed) pattern whose names are absent from the
environment, in scanning order. -/
def absentRefs (pat : String) (env : List (String × String)) : List String :=
  (expandRefs (pat.data.length + 1) pat.data).filter
    (fun n => (goLookup env n).isNone)

/-- `destDirectory(src, destPattern, env)`: reject relative sources
(`filepath.IsAbs` on Unix is a leading `/` test), trim the pattern, expand
it, and fail when some reference was unknown. -/
def destDirectory (src destPattern : String) (env : List (String × String)) :
    Except String String :=
  if ¬ goHasPrefix src "/" then .error ("not an absolute path: " ++ src)
  else if ¬ (goExpand env (goTrimSpace destPattern)).2 = "" then
    .error ("unknown environ variable in dest: " ++
      (goExpand env (goTrimSpace destPattern)).2)
  else .ok (String.mk (goExpand env (goTrimSpace destPattern)).1)

/-! ## Basic facts about the embedded map operations -/

theorem string_eq_of_data {s t : String} (h : s.data = t.data) : s = t := by
  cases s; cases t; exact congrArg String.mk h

theorem goLookup_append {α : Type} (a b : List (String × α)) (k : String) :
    goLookup (a ++ b) k =
      match goLookup a k with
      | some v => some v
      | none => goLookup b k := by
  induction a with
  | nil => simp [goLookup]
  | cons p rest ih =>
    by_cases h : p.1 = k <;> simp [goLookup, h, ih]

theorem goLookup_eq_none_iff {α : Type} (m : List (String × α)) (k : String) :
    goLookup m k = none ↔ m.any (fun p => p.1 = k) = false := by
  induction m with
  | nil => simp [goLookup]
  | cons p rest ih =>
    by_cases h : p.1 = k <;> simp [goLookup, h, ih]

theorem goLookup_map_overwrite {α : Type} (m : List (String × α)) (k : String) (v : α) :
    goLookup (m.map (fun p => if p.1 = k then (k, v) else p)) k =
      if m.any (fun p => p.1 = k) then some v else none := by
  induction m with
  | nil => simp [goLookup]
  | cons p rest ih =>
    by_cases h : p.1 = k
    · simp [goLookup, h]
    · have hd : (decide (p.1 = k)) = false := by simp [h]
      simp only [List.map_cons, if_neg h, goLookup, List.any_cons, hd, Bool.false_or]
      exact ih

theorem goLookup_map_overwrite_ne {α : Type} (m : List (String × α)) (k : String)
    (v : α) (k' : String) (h : ¬ k' = k) :
    goLookup (m.map (fun p => if p.1 = k then (k, v) else p)) k' = goLookup m k' := by
  induction m with
  | nil => rfl
  | cons p rest ih =>
    by_cases hp : p.1 = k
    · have hk : ¬ k = k' := fun he => h he.symm
      simp [goLookup, hp, hk, ih]
    · by_cases hp' : p.1 = k'
      · simp only [List.map_cons, if_neg hp, goLookup, if_pos hp']
      · simp only [List.map_cons, if_neg hp, goLookup, if_neg hp']
        exact ih

theorem goLookup_goInsert_self {α : Type} (m : List (String × α)) (k : String) (v : α) :
    goLookup (goInsert m k v) k = some v := by
  unfold goInsert
  by_cases h : m.any (fun p => p.1 = k)
  · simp only [h, if_true]
    rw [goLookup_map_overwrite, if_pos h]
  · simp only [h, Bool.false_eq_true, if_false]
    rw [goLookup_append]
    have hn : goLookup m k = none :=
      (goLookup_eq_none_iff m k).mpr (Bool.eq_false_iff.mpr h)
    rw [hn]
    simp [goLookup]

theorem goLookup_goInsert_ne {α : Type} (m : List (String × α)) (k : String) (v : α)
    (k' : String) (h : ¬ k' = k) :
    goLookup (goInsert m k v) k' = goLookup m k' := by
  unfold goInsert
  by_cases hm : m.any (fun p => p.1 = k)
  · simp only [hm, if_true]
    exact goLookup_map_overwrite_ne m k v k' h
  · simp only [hm, Bool.false_eq_true, if_false]
    rw [goLookup_append]
    cases hl : goLookup m k' with
    | some v' => rfl
    | none =>
      have hk : ¬ k = k' := fun he => h he.symm
      simp [goLookup, hk]

theorem goLookup_eq_none_iff_keys {α : Type} (m : List (String × α)) (k : String) :
    goLookup m k = none ↔ k ∉ m.map Prod.fst := by
  induction m with
  | nil => simp [goLookup]
  | cons p rest ih =>
    by_cases h : p.1 = k
    · subst h
      simp [goLookup]
    · have hk : ¬ k = p.1 := fun he => h he.symm
      simp [goLookup, h, ih, hk]

theorem goInsert_keys_of_mem {α : Type} (m : List (String × α)) (k : String) (v : α)
    (h : m.any (fun p => p.1 = k)) :
    (goInsert m k v).map Prod.fst = m.map Prod.fst := by
  unfold goInsert
  rw [if_pos h, List.map_map]
  apply List.map_congr_left
  intro p _
  by_cases hp : p.1 = k <;> simp [hp]

theorem goInsert_keys_of_not_mem {α : Type} (m : List (String × α)) (k : String) (v : α)
    (h : ¬ m.any (fun p => p.1 = k)) :
    (goInsert m k v).map Prod.fst = m.map Prod.fst ++ [k] := by
  unfold goInsert
  rw [if_neg h, List.map_append]
  rfl

theorem goInsert_keys_nodup {α : Type} (m : List (String × α)) (k : String) (v : α)
    (h : (m.map Prod.fst).Nodup) : ((goInsert m k v).map Prod.fst).Nodup := by
  by_cases hm : m.any (fun p => p.1 = k)
  · rw [goInsert_keys_of_mem m k v hm]; exact h
  · rw [goInsert_keys_of_not_mem m k v hm]
    have hk : k ∉ m.map Prod.fst := by
      rw [← goLookup_eq_none_iff_keys]
      exact (goLookup_eq_none_iff m k).mpr (Bool.eq_false_iff.mpr hm)
    simp [List.nodup_append, h, hk]

theorem goInsert_mem_keys {α : Type} (m : List (String × α)) (k : String) (v : α)
    (k' : String) :
    k' ∈ (goInsert m k v).map Prod.fst ↔ k' ∈ m.map Prod.fst ∨ k' = k := by
  by_cases hm : m.any (fun p => p.1 = k)
  · rw [goInsert_keys_of_mem m k v hm]
    constructor
    · exact fun h => Or.inl h
    · rintro (h | rfl)
      · exact h
      · rcases List.any_eq_true.mp hm with ⟨p, hp, he⟩
        have : p.1 = k' := by simpa using he
        exact this ▸ List.mem_map_of_mem Prod.fst hp
  · rw [goInsert_keys_of_not_mem m k v hm]
    simp

/-! ## Facts about the splitting loop -/

theorem sep_data_ne_nil (sep : String) (h : ¬ goTrimSpace sep = "") :
    sep.data ≠ [] := by
  intro hd
  apply h
  have : sep = "" := string_eq_of_data (by simpa using hd)
  subst this
  rfl

theorem goIndexL_le (l sub : List Char) (i : Nat) (h : goIndexL l sub = some i) :
    i ≤ l.length := by
  induction l generalizing i with
  | nil =>
    unfold goIndexL at h
    by_cases hs : sub = [] <;> simp [hs] at h
    omega
  | cons c rest ih =>
    unfold goIndexL at h
    by_cases hp : sub.isPrefixOf (c :: rest)
    · simp [hp] at h; omega
    · simp [hp] at h
      rcases h with ⟨j, hj, rfl⟩
      have := ih j hj
      simp
      omega

/-- The effective occurrence positions: for each separator that is not
entirely white space and occurs in `remain`, its first-occurrence index. -/
def effOccs (remain : List Char) (seps : List String) : List Nat :=
  seps.filterMap
    (fun sep => if goTrimSpace sep = "" then none else goIndexL remain sep.data)

theorem findCut_min_aux (remain : List Char) (seps : List String) :
    ∀ acc : Nat × List Char,
      (seps.foldl (cutStep remain) acc).1 = (effOccs remain seps).foldl min acc.1 := by
  induction seps with
  | nil => intro acc; rfl
  | cons sep rest ih =>
    intro acc
    rw [List.foldl_cons]
    by_cases hws : goTrimSpace sep = ""
    · rw [ih (cutStep remain acc sep)]
      simp [cutStep, hws, effOccs]
    · cases hidx : goIndexL remain sep.data with
      | none =>
        rw [ih (cutStep remain acc sep)]
        simp [cutStep, hws, hidx, effOccs]
      | some i =>
        rw [ih (cutStep remain acc sep)]
        have hstep : (cutStep remain acc sep).1 = min acc.1 i := by
          by_cases hle : acc.1 ≤ i
          · simp [cutStep, hws, hidx, hle, Nat.min_eq_left hle]
          · have : i ≤ acc.1 := Nat.le_of_not_le hle
            simp [cutStep, hws, hidx, hle, Nat.min_eq_right this]
        rw [hstep]
        have heff : effOccs remain (sep :: rest) = i :: effOccs remain rest := by
          simp [effOccs, hws, hidx]
        rw [heff, List.foldl_cons]

theorem findCut_snd_nil_aux (remain : List Char) (seps : List String) :
    ∀ acc : Nat × List Char,
      (acc.2 = [] → acc.1 = remain.length) →
      ((seps.foldl (cutStep remain) acc).2 = [] →
        (seps.foldl (cutStep remain) acc).1 = remain.length) := by
  induction seps with
  | nil => intro acc h; exact h
  | cons sep rest ih =>
    intro acc h
    rw [List.foldl_cons]
    apply ih
    by_cases hws : goTrimSpace sep = ""
    · simpa [cutStep, hws] using h
    · cases hidx : goIndexL remain sep.data with
      | none => simpa [cutStep, hws, hidx] using h
      | some i =>
        by_cases hle : acc.1 ≤ i
        · simpa [cutStep, hws, hidx, hle] using h
        · intro habs
          have hnil : sep.data = [] := by
            simpa [cutStep, hws, hidx, hle] using habs
          exact absurd hnil (sep_data_ne_nil sep hws)

theorem findCut_snd_nil (remain : List Char) (seps : List String)
    (h : (findCut remain seps).2 = []) : (findCut remain seps).1 = remain.length :=
  findCut_snd_nil_aux remain seps (remain.length, []) (fun _ => rfl) h

theorem findCut_provenance (remain : List Char) (seps : List String) :
    ∀ acc : Nat × List Char,
      seps.foldl (cutStep remain) acc = acc ∨
      ∃ sep ∈ seps, ¬ goTrimSpace sep = "" ∧
        sep.data = (seps.foldl (cutStep remain) acc).2 ∧
        goIndexL remain sep.data = some (seps.foldl (cutStep remain) acc).1 := by
  induction seps with
  | nil => intro acc; exact Or.inl rfl
  | cons sep rest ih =>
    intro acc
    rw [List.foldl_cons]
    rcases ih (cutStep remain acc sep) with heq | ⟨s, hs, hws, hdata, hidx⟩
    · rw [heq]
      by_cases hws : goTrimSpace sep = ""
      · exact Or.inl (by simp [cutStep, hws])
      · cases hidx : goIndexL remain sep.data with
        | none => exact Or.inl (by simp [cutStep, hws, hidx])
        | some i =>
          by_cases hle : acc.1 ≤ i
          · exact Or.inl (by simp [cutStep, hws, hidx, hle])
          · refine Or.inr ⟨sep, List.mem_cons_self sep rest, hws, ?_, ?_⟩
            · simp [cutStep, hws, hidx, hle]
            · simp [cutStep, hws, hidx, hle]
    · exact Or.inr ⟨s, List.mem_cons_of_mem sep hs, hws, hdata, hidx⟩

theorem findCut_advance (remain : List Char) (seps : List String) (h : remain ≠ []) :
    (remain.drop ((findCut remain seps).1 + (findCut remain seps).2.length)).length
      < remain.length := by
  have hpos : 0 < remain.length := List.length_pos.mpr h
  cases hc : (findCut remain seps).2 with
  | nil =>
    have := findCut_snd_nil remain seps hc
    simp [this, hc]
    omega
  | cons c cs =>
    rw [List.length_drop]
    simp [hc]
    omega


/-! ## Fuel independence and the fragment-count bookkeeping -/

theorem goSplitAux_fuel (seps : List String) :
    ∀ f g remain, remain.length < f → remain.length < g →
      goSplitAux seps f remain = goSplitAux seps g remain := by
  intro f
  induction f with
  | zero => intro g remain h _; exact absurd h (by omega)
  | succ f ih =>
    intro g remain hf hg
    cases g with
    | zero => exact absurd hg (by omega)
    | succ g =>
      cases remain with
      | nil => rfl
      | cons a rest =>
        have hadv := findCut_advance (a :: rest) seps (by simp)
        simp only [goSplitAux]
        congr 1
        apply ih
        · have : (a :: rest).length ≤ f := by
            have := hf; simp at this ⊢; omega
          omega
        · have : (a :: rest).length ≤ g := by
            have := hg; simp at this ⊢; omega
          omega

/-- Contribution of the final pair to the fragment count: `1` when the last
iteration found no separator, `0` when the input ended at a consumed
separator (and for the empty sequence). -/
def lastCutterNil (ps : List (List Char × List Char)) : Nat :=
  match ps.getLast? with
  | some p => if p.2 = [] then 1 else 0
  | none => 0

theorem lastCutterNil_cons (p : List Char × List Char)
    (l : List (List Char × List Char)) (h : l ≠ []) :
    lastCutterNil (p :: l) = lastCutterNil l := by
  cases l with
  | nil => exact absurd rfl h
  | cons q qs => simp [lastCutterNil, List.getLast?_cons_cons]

theorem goSplitAux_length (seps : List String) :
    ∀ fuel remain, remain.length < fuel →
      (goSplitAux seps fuel remain).length =
        ((goSplitAux seps fuel remain).filter (fun p => ¬ p.2 = [])).length +
        lastCutterNil (goSplitAux seps fuel remain) := by
  intro fuel
  induction fuel with
  | zero => intro remain h; exact absurd h (by omega)
  | succ fuel ih =>
    intro remain hf
    cases remain with
    | nil => rfl
    | cons a rest =>
      have hlen1 : (a :: rest).length ≤ fuel := by
        have := hf; simp at this ⊢; omega
      by_cases hc : (findCut (a :: rest) seps).2 = []
      · have hidx : (findCut (a :: rest) seps).1 = (a :: rest).length :=
          findCut_snd_nil (a :: rest) seps hc
        have hrest : (a :: rest).drop
            ((findCut (a :: rest) seps).1 + (findCut (a :: rest) seps).2.length) = [] := by
          apply List.drop_eq_nil_of_le
          rw [hidx, hc]
          simp
        have hnil : goSplitAux seps fuel ((a :: rest).drop
            ((findCut (a :: rest) seps).1 + (findCut (a :: rest) seps).2.length)) = [] := by
          rw [hrest]
          cases fuel with
          | zero => rfl
          | succ n => rfl
        simp only [goSplitAux, hnil]
        simp [lastCutterNil, hc]
      · have hadv := findCut_advance (a :: rest) seps (by simp)
        have h1 : ((a :: rest).drop
            ((findCut (a :: rest) seps).1 + (findCut (a :: rest) seps).2.length)).length
            < fuel := by omega
        have ihp := ih _ h1
        simp only [goSplitAux]
        cases hpe : goSplitAux seps fuel ((a :: rest).drop
            ((findCut (a :: rest) seps).1 + (findCut (a :: rest) seps).2.length)) with
        | nil =>
          simp [lastCutterNil, List.filter, hc]
        | cons q qs =>
          rw [hpe] at ihp
          have hdec : (decide (Not ((findCut (a :: rest) seps).2 = []))) = true := by
            simpa using hc
          rw [List.filter_cons, hdec, if_pos rfl,
            lastCutterNil_cons _ (q :: qs) (by simp)]
          simp only [List.length_cons] at ihp ⊢
          omega

/-! ## Claim theorems: the splitting phase (C4) and separator choice (C9) -/

/-- C4 (counterexample): the claim predicts that the fragment sequence is
always one longer than the number of separator occurrences consumed, with
an input ending in a separator yielding an empty final fragment; but for
input "a-" with separator "-" the loop consumes one separator and produces
the single fragment "a" — no empty final fragment, and `1 ≠ 1 + 1`. -/
theorem splitter_count_cex :
    goSplitVals "a-" ["-"] = ["a"] ∧ goSepCount "a-" ["-"] = 1 ∧
    ¬ ((goSplitVals "a-" ["-"]).length = goSepCount "a-" ["-"] + 1) := by
  refine ⟨?_, ?_, ?_⟩ <;> decide

/-- C4 (amended): the fragment sequence is one longer than the number of
separator occurrences consumed exactly when the final fragment was produced
by finding no separator (`lastCutterNil` is `1`); when the input ends at a
consumed separator no empty final fragment is produced and the two counts
are equal (`lastCutterNil` is `0`); the empty input yields no fragments. -/
theorem splitter_fragment_count (src : String) (seps : List String) :
    (src = "" → goSplitIter src seps = []) ∧
    (goSplitVals src seps).length =
      goSepCount src seps + lastCutterNil (goSplitIter src seps) := by
  constructor
  · intro h; subst h; rfl
  · simp only [goSplitVals, goSepCount, goSplitIter, List.length_map]
    exact goSplitAux_length seps (src.data.length + 1) src.data (by omega)

/-- Witness for `splitter_fragment_count` at concrete inputs. -/
theorem splitter_fragment_count_witness :
    goSplitIter "" ["-"] = [] ∧
    (goSplitVals "a-b" ["-"]).length =
      goSepCount "a-b" ["-"] + lastCutterNil (goSplitIter "a-b" ["-"]) :=
  ⟨(splitter_fragment_count "" ["-"]).1 rfl, (splitter_fragment_count "a-b" ["-"]).2⟩

/-- C9: at each splitting step the tokenizer cuts at the earliest occurrence
position among the effective separators — `effOccs` ranges over exactly the
separators that are not entirely white space, so white-space separators
never act as splitters — regardless of list order; and any chosen cutter is
itself an effective separator occurring exactly at the chosen position. -/
theorem splitter_cuts_earliest (remain : List Char) (seps : List String) :
    (findCut remain seps).1 = (effOccs remain seps).foldl min remain.length ∧
    ((findCut remain seps).2 = [] ∨
      ∃ sep ∈ seps, ¬ goTrimSpace sep = "" ∧
        sep.data = (findCut remain seps).2 ∧
        goIndexL remain sep.data = some (findCut remain seps).1) := by
  constructor
  · exact findCut_min_aux remain seps (remain.length, [])
  · rcases findCut_provenance remain seps (remain.length, []) with h | h
    · left
      show (findCut remain seps).2 = []
      rw [findCut, h]
    · right
      exact h

/-! ## Unknown-variable bookkeeping of the resolver (for C2) -/

theorem goExpandAux_unknown (env : List (String × String)) :
    ∀ fuel s unk,
      (goExpandAux env fuel s unk).2 =
        List.foldl (fun _ n => "$" ++ n) unk
          ((expandRefs fuel s).filter (fun n => (goLookup env n).isNone)) := by
  intro fuel
  induction fuel with
  | zero => intro s unk; rfl
  | succ fuel ih =>
    intro s unk
    cases s with
    | nil => rfl
    | cons c rest =>
      by_cases hd : c = '$' ∧ rest ≠ []
      · by_cases h1 : (getShellName rest).1 = [] ∧ 0 < (getShellName rest).2
        · simp only [goExpandAux, expandRefs, if_pos hd, if_pos h1]
          exact ih _ _
        · by_cases h2 : (getShellName rest).1 = []
          · simp only [goExpandAux, expandRefs, if_pos hd, if_neg h1, if_pos h2]
            exact ih _ _
          · cases hl : goLookup env (String.mk (getShellName rest).1) with
            | some v =>
              simp only [goExpandAux, expandRefs, if_pos hd, if_neg h1, if_neg h2,
                hl, List.filter_cons, Option.isNone_some, Bool.false_eq_true,
                if_false]
              exact ih _ _
            | none =>
              simp only [goExpandAux, expandRefs, if_pos hd, if_neg h1, if_neg h2,
                hl, List.filter_cons, Option.isNone_none, if_true, List.foldl_cons]
              exact ih _ _
      · simp only [goExpandAux, expandRefs, if_neg hd]
        exact ih _ _

theorem foldl_replace_ne_nil (unk : String) (l : List String) (h : ¬ l = []) :
    List.foldl (fun _ n => "$" ++ n) unk l = "$" ++ l.getLastD "" := by
  induction l generalizing unk with
  | nil => exact absurd rfl h
  | cons a l ih =>
    cases l with
    | nil => rfl
    | cons b l2 =>
      rw [List.foldl_cons]
      rw [ih ("$" ++ a) (by simp)]
      rw [List.getLastD_cons, List.getLastD_cons, List.getLastD_cons]

theorem dollar_append_ne_empty (n : String) : ¬ ("$" ++ n) = "" := by
  intro h
  have hd := congrArg String.data h
  rw [String.data_append] at hd
  exact absurd hd (by simp [show ("$" : String).data = [Char.ofNat 36] from rfl])

/-! ## Claim theorems: the resolver's unknown-variable error (C2) -/

/-- C2 (counterexample): with both `A` and `B` absent, the resolver's error
names `$B` — the last absent reference in pattern order — not the first
(`$A`) as the claim states. -/
theorem resolver_unknown_cex :
    destDirectory "/s" "${A}${B}" [] =
      .error "unknown environ variable in dest: $B" ∧
    ¬ destDirectory "/s" "${A}${B}" [] =
      .error "unknown environ variable in dest: $A" := by
  constructor <;> decide

/-- C2 (amended): for every absolute source path, pattern and environment,
if the (trimmed) pattern contains at least one variable reference whose
name is absent from the environment, `destDirectory` fails with an
"unknown variable" error naming the last such absent reference in
left-to-right pattern order, and no destination path is returned. -/
theorem resolver_unknown_names_last (src pattern : String)
    (env : List (String × String))
    (habs : goHasPrefix src "/" = true)
    (hne : ¬ absentRefs (goTrimSpace pattern) env = []) :
    destDirectory src pattern env =
      .error ("unknown environ variable in dest: " ++
        ("$" ++ (absentRefs (goTrimSpace pattern) env).getLastD "")) := by
  have hunk : (goExpand env (goTrimSpace pattern)).2 =
      "$" ++ (absentRefs (goTrimSpace pattern) env).getLastD "" := by
    rw [goExpand, goExpandAux_unknown]
    exact foldl_replace_ne_nil "" _ hne
  unfold destDirectory
  rw [if_neg (by simp [habs]), hunk, if_pos (dollar_append_ne_empty _)]

/-- Witness for `resolver_unknown_names_last` at a concrete input. -/
theorem resolver_unknown_names_last_witness :
    destDirectory "/s" "${A}${B}" [] =
      .error ("unknown environ variable in dest: " ++
        ("$" ++ (absentRefs (goTrimSpace "${A}${B}") []).getLastD "")) :=
  resolver_unknown_names_last "/s" "${A}${B}" [] (by decide) (by decide)

/-! ## Lookup characterisation of the binding loops (for C5) -/

theorem getD_append_lt {α : Type} (L : List α) (t : List α) (d : α) (i : Nat)
    (hi : i < L.length) : (L ++ t).getD i d = L.getD i d := by
  induction L generalizing i with
  | nil => exact absurd hi (by simp)
  | cons a L ih =>
    cases i with
    | zero => rfl
    | succ i =>
      simp only [List.cons_append, List.getD_cons_succ]
      exact ih i (by simpa using hi)

theorem getD_append_self {α : Type} (L : List α) (k : α) (t : List α) (d : α) :
    (L ++ k :: t).getD L.length d = k := by
  induction L with
  | nil => rfl
  | cons a L ih => simpa using ih

theorem getD_mem {α : Type} (L : List α) (d : α) (i : Nat) (hi : i < L.length) :
    L.getD i d ∈ L := by
  induction L generalizing i with
  | nil => exact absurd hi (by simp)
  | cons a L ih =>
    cases i with
    | zero => exact List.mem_cons_self a L
    | succ i =>
      simp only [List.getD_cons_succ]
      exact List.mem_cons_of_mem a (ih i (by simpa using hi))

theorem bindLeftFold_concat (L : List String) (kk : String) (vals : List String)
    (e0 : List (String × String)) :
    bindLeftFold (L ++ [kk]) vals e0 =
      (if kk = "_" then bindLeftFold L vals e0
       else goInsert (bindLeftFold L vals e0) kk (vals.getD L.length "")) := by
  unfold bindLeftFold
  rw [List.length_append, List.length_singleton, List.range_succ, List.foldl_append]
  have hbody :
      (List.range L.length).foldl
        (fun e i =>
          if (L ++ [kk]).getD i "" = "_" then e
          else goInsert e ((L ++ [kk]).getD i "") (vals.getD i "")) e0 =
      (List.range L.length).foldl
        (fun e i =>
          if L.getD i "" = "_" then e
          else goInsert e (L.getD i "") (vals.getD i "")) e0 := by
    apply List.foldl_ext
    intro e i hi
    have hlt : i < L.length := List.mem_range.mp hi
    rw [getD_append_lt L [kk] "" i hlt]
  rw [hbody, List.foldl_cons, List.foldl_nil, getD_append_self L kk [] ""]

theorem bindRightFold_cons (kk : String) (R : List String) (vals : List String)
    (e0 : List (String × String)) :
    bindRightFold (kk :: R) vals e0 =
      (if kk = "_" then bindRightFold R vals e0
       else goInsert (bindRightFold R vals e0) kk
         (vals.getD (vals.length - 1 - R.length) "")) := by
  unfold bindRightFold
  rw [List.length_cons, List.range_succ, List.foldl_append]
  have hbody :
      (List.range R.length).foldl
        (fun e i =>
          if (kk :: R).getD (R.length + 1 - 1 - i) "" = "_" then e
          else goInsert e ((kk :: R).getD (R.length + 1 - 1 - i) "")
            (vals.getD (vals.length - 1 - i) "")) e0 =
      (List.range R.length).foldl
        (fun e i =>
          if R.getD (R.length - 1 - i) "" = "_" then e
          else goInsert e (R.getD (R.length - 1 - i) "")
            (vals.getD (vals.length - 1 - i) "")) e0 := by
    apply List.foldl_ext
    intro e i hi
    have hlt : i < R.length := List.mem_range.mp hi
    have hidx : R.length + 1 - 1 - i = (R.length - 1 - i) + 1 := by omega
    rw [hidx, List.getD_cons_succ]
  rw [hbody, List.foldl_cons, List.foldl_nil]
  have hidx0 : R.length + 1 - 1 - R.length = 0 := by omega
  rw [hidx0, List.getD_cons_zero]

theorem real_nodup_concat (L : List String) (kk : String)
    (h : ((L ++ [kk]).filter (fun x => ¬ x = "_")).Nodup) :
    (L.filter (fun x => ¬ x = "_")).Nodup ∧
      (¬ kk = "_" → kk ∉ L.filter (fun x => ¬ x = "_")) := by
  rw [List.filter_append] at h
  rcases List.nodup_append.mp h with ⟨h1, _, hdisj⟩
  refine ⟨h1, fun hkk hmem => ?_⟩
  exact hdisj hmem (by simp [hkk])

theorem real_nodup_cons (kk : String) (R : List String)
    (h : ((kk :: R).filter (fun x => ¬ x = "_")).Nodup) :
    (R.filter (fun x => ¬ x = "_")).Nodup ∧
      (¬ kk = "_" → kk ∉ R.filter (fun x => ¬ x = "_")) := by
  by_cases hkk : kk = "_"
  · rw [List.filter_cons] at h
    have hd : (decide ¬ kk = "_") = false := by simp [hkk]
    rw [hd, if_neg (by simp)] at h
    exact ⟨h, fun hc => absurd hkk hc⟩
  · rw [List.filter_cons] at h
    have hd : (decide ¬ kk = "_") = true := by simpa using hkk
    rw [hd, if_pos rfl] at h
    rcases List.nodup_cons.mp h with ⟨hnot, hnd⟩
    exact ⟨hnd, fun _ => hnot⟩

theorem bindLeftFold_lookup_not_mem (L vals : List String)
    (e0 : List (String × String)) (k : String) (hk : k ∈ L → k = "_") :
    goLookup (bindLeftFold L vals e0) k = goLookup e0 k := by
  induction L using List.reverseRecOn with
  | nil => rfl
  | append_singleton L kk ih =>
    rw [bindLeftFold_concat]
    by_cases hkk : kk = "_"
    · rw [if_pos hkk]
      exact ih (fun hm => hk (List.mem_append_left _ hm))
    · rw [if_neg hkk]
      have hne : ¬ k = kk := by
        intro he
        subst he
        exact hkk (hk (List.mem_append_right _ (List.mem_singleton_self k)))
      rw [goLookup_goInsert_ne _ _ _ _ hne]
      exact ih (fun hm => hk (List.mem_append_left _ hm))

theorem bindLeftFold_lookup_getD (L vals : List String)
    (e0 : List (String × String))
    (hnd : (L.filter (fun x => ¬ x = "_")).Nodup)
    (i : Nat) (hi : i < L.length) (hk : ¬ L.getD i "" = "_") :
    goLookup (bindLeftFold L vals e0) (L.getD i "") = some (vals.getD i "") := by
  induction L using List.reverseRecOn generalizing i with
  | nil => exact absurd hi (by simp)
  | append_singleton L kk ih =>
    rcases real_nodup_concat L kk hnd with ⟨hnd1, hfresh⟩
    by_cases hi2 : i < L.length
    · have hgd : (L ++ [kk]).getD i "" = L.getD i "" := getD_append_lt L [kk] "" i hi2
      rw [hgd] at hk ⊢
      rw [bindLeftFold_concat]
      by_cases hkk : kk = "_"
      · rw [if_pos hkk]
        exact ih hnd1 i hi2 hk
      · rw [if_neg hkk]
        have hne : ¬ L.getD i "" = kk := by
          intro he
          apply hfresh hkk
          rw [← he]
          exact List.mem_filter.mpr ⟨getD_mem L "" i hi2, by simpa using hk⟩
        rw [goLookup_goInsert_ne _ _ _ _ hne]
        exact ih hnd1 i hi2 hk
    · have hieq : i = L.length := by
        have := hi
        simp only [List.length_append, List.length_singleton] at this
        omega
      subst hieq
      have hgd : (L ++ [kk]).getD L.length "" = kk := getD_append_self L kk [] ""
      rw [hgd] at hk ⊢
      rw [bindLeftFold_concat, if_neg hk]
      exact goLookup_goInsert_self _ _ _

theorem bindRightFold_lookup_not_mem (R vals : List String)
    (e0 : List (String × String)) (k : String) (hk : k ∈ R → k = "_") :
    goLookup (bindRightFold R vals e0) k = goLookup e0 k := by
  induction R with
  | nil => rfl
  | cons kk R ih =>
    rw [bindRightFold_cons]
    by_cases hkk : kk = "_"
    · rw [if_pos hkk]
      exact ih (fun hm => hk (List.mem_cons_of_mem kk hm))
    · rw [if_neg hkk]
      have hne : ¬ k = kk := by
        intro he
        subst he
        exact hkk (hk (List.mem_cons_self k R))
      rw [goLookup_goInsert_ne _ _ _ _ hne]
      exact ih (fun hm => hk (List.mem_cons_of_mem kk hm))

theorem bindRightFold_lookup_getD (R vals : List String)
    (e0 : List (String × String))
    (hnd : (R.filter (fun x => ¬ x = "_")).Nodup)
    (hvr : R.length ≤ vals.length)
    (j : Nat) (hj : j < R.length) (hk : ¬ R.getD j "" = "_") :
    goLookup (bindRightFold R vals e0) (R.getD j "") =
      some (vals.getD (vals.length - R.length + j) "") := by
  induction R generalizing j with
  | nil => exact absurd hj (by simp)
  | cons kk R ih =>
    rcases real_nodup_cons kk R hnd with ⟨hnd1, hfresh⟩
    rw [bindRightFold_cons]
    cases j with
    | zero =>
      rw [List.getD_cons_zero] at hk ⊢
      rw [if_neg hk, goLookup_goInsert_self]
      have hix : vals.length - 1 - R.length = vals.length - (kk :: R).length + 0 := by
        simp only [List.length_cons]
        omega
      rw [hix]
    | succ j =>
      rw [List.getD_cons_succ] at hk ⊢
      have hj2 : j < R.length := by simpa using hj
      have hvr2 : R.length ≤ vals.length := by
        simp only [List.length_cons] at hvr
        omega
      by_cases hkk : kk = "_"
      · rw [if_pos hkk, ih hnd1 hvr2 j hj2 hk]
        have hix : vals.length - R.length + j = vals.length - (kk :: R).length + (j + 1) := by
          simp only [List.length_cons] at hvr ⊢
          omega
        rw [hix]
      · rw [if_neg hkk]
        have hne : ¬ R.getD j "" = kk := by
          intro he
          apply hfresh hkk
          rw [← he]
          exact List.mem_filter.mpr ⟨getD_mem R "" j hj2, by simpa using hk⟩
        rw [goLookup_goInsert_ne _ _ _ _ hne, ih hnd1 hvr2 j hj2 hk]
        have hix : vals.length - R.length + j = vals.length - (kk :: R).length + (j + 1) := by
          simp only [List.length_cons] at hvr ⊢
          omega
        rw [hix]

/-! ## The wildcard shape of the key list (for C5) -/

theorem filter_dots_nil (L : List String) (hL : "..." ∉ L) :
    L.filter (fun k => k = "...") = [] := by
  induction L with
  | nil => rfl
  | cons a L ih =>
    rw [List.filter_cons]
    have ha : ¬ a = "..." := fun he => hL (he ▸ List.mem_cons_self a L)
    have hd : (decide (a = "...")) = false := by simpa using ha
    rw [hd, if_neg (by simp)]
    exact ih (fun hm => hL (List.mem_cons_of_mem a hm))

theorem dividerIdx_append (L R : List String) (hL : "..." ∉ L) :
    dividerIdx (L ++ "..." :: R) = some L.length := by
  induction L with
  | nil => simp [dividerIdx]
  | cons a L ih =>
    rw [List.cons_append]
    have ha : ¬ a = "..." := fun he => hL (he ▸ List.mem_cons_self a L)
    simp only [dividerIdx, if_neg ha,
      ih (fun hm => hL (List.mem_cons_of_mem a hm)), Option.map_some]
    rfl

theorem take_append_len {α : Type} (L t : List α) : (L ++ t).take L.length = L := by
  induction L with
  | nil => rfl
  | cons a L ih => simp [ih]

theorem drop_append_len1 {α : Type} (L : List α) (x : α) (t : List α) :
    (L ++ x :: t).drop (L.length + 1) = t := by
  induction L with
  | nil => rfl
  | cons a L ih => simp [ih]

theorem parseEnvs_wildcard_shape (src : String) (seps L R : List String)
    (hL : "..." ∉ L) (hR : "..." ∉ R) :
    parseEnvs src seps (L ++ "..." :: R) =
      (if (goSplitVals src seps).length < L.length + R.length then
        .error ("not enough values for keys: " ++ src)
       else .ok (bindKeys L R (goSplitVals src seps))) := by
  have hflt : ¬ 2 ≤ ((L ++ "..." :: R).filter (fun k => k = "...")).length := by
    rw [List.filter_append, filter_dots_nil L hL, List.filter_cons]
    have hd : (decide (("..." : String) = "...")) = true := by simp
    rw [hd, if_pos rfl, filter_dots_nil R hR]
    simp
  have hlen : (L ++ "..." :: R).length - 1 = L.length + R.length := by
    simp [List.length_append]
  unfold parseEnvs
  rw [if_neg hflt, dividerIdx_append L R hL]
  show (if (goSplitVals src seps).length < (L ++ "..." :: R).length - 1 then
      (Except.error ("not enough values for keys: " ++ src) :
        Except String (List (String × String)))
    else Except.ok (bindKeys ((L ++ "..." :: R).take L.length)
      ((L ++ "..." :: R).drop (L.length + 1)) (goSplitVals src seps))) = _
  rw [hlen, take_append_len, drop_append_len1]

/-! ## Claim theorem: wildcard binding (C5) -/

/-- C5: for a key list with exactly one wildcard divider (`L ++ "..." :: R`
with `...` in neither side) and pairwise-distinct real key names, when the
fragment sequence has at least `|L| + |R|` elements `parseEnvs` succeeds and
binds the keys left of the divider to the leading fragments left-to-right,
the keys right of the divider to the trailing fragments right-to-left,
silently discards the fragments strictly in between (no other name is bound
at all), and omits `_` keys; with fewer fragments it fails with the
"not enough values" error. -/
theorem tokenizer_wildcard_binding (src : String) (seps L R : List String)
    (hL : "..." ∉ L) (hR : "..." ∉ R) :
    ((goSplitVals src seps).length < L.length + R.length →
      parseEnvs src seps (L ++ "..." :: R) =
        .error ("not enough values for keys: " ++ src)) ∧
    (L.length + R.length ≤ (goSplitVals src seps).length →
      ((L ++ R).filter (fun x => ¬ x = "_")).Nodup →
      ∃ env, parseEnvs src seps (L ++ "..." :: R) = .ok env ∧
        (∀ i, i < L.length → ¬ L.getD i "" = "_" →
          goLookup env (L.getD i "") = some ((goSplitVals src seps).getD i "")) ∧
        (∀ j, j < R.length → ¬ R.getD j "" = "_" →
          goLookup env (R.getD j "") =
            some ((goSplitVals src seps).getD
              ((goSplitVals src seps).length - R.length + j) "")) ∧
        (∀ k, (k ∈ L → k = "_") → (k ∈ R → k = "_") →
          goLookup env k = none)) := by
  constructor
  · intro hlt
    rw [parseEnvs_wildcard_shape src seps L R hL hR, if_pos hlt]
  · intro hge hnd
    have hndL : (L.filter (fun x => ¬ x = "_")).Nodup := by
      rw [List.filter_append] at hnd
      exact (List.nodup_append.mp hnd).1
    have hndR : (R.filter (fun x => ¬ x = "_")).Nodup := by
      rw [List.filter_append] at hnd
      exact (List.nodup_append.mp hnd).2.1
    have hdisj : ∀ k, k ∈ L.filter (fun x => ¬ x = "_") →
        k ∈ R.filter (fun x => ¬ x = "_") → False := by
      rw [List.filter_append] at hnd
      intro k h1 h2
      exact (List.nodup_append.mp hnd).2.2 h1 h2
    refine ⟨bindKeys L R (goSplitVals src seps), ?_, ?_, ?_, ?_⟩
    · rw [parseEnvs_wildcard_shape src seps L R hL hR, if_neg (by omega)]
    · intro i hi hk
      unfold bindKeys
      have hkR : L.getD i "" ∈ R → L.getD i "" = "_" := by
        intro hmR
        by_contra hne
        exact hdisj (L.getD i "")
          (List.mem_filter.mpr ⟨getD_mem L "" i hi, by simpa using hk⟩)
          (List.mem_filter.mpr ⟨hmR, by simpa using hne⟩)
      rw [bindRightFold_lookup_not_mem R _ _ _ hkR]
      exact bindLeftFold_lookup_getD L _ [] hndL i hi hk
    · intro j hj hk
      unfold bindKeys
      exact bindRightFold_lookup_getD R _ _ hndR (by omega) j hj hk
    · intro k hkL hkR
      unfold bindKeys
      rw [bindRightFold_lookup_not_mem R _ _ _ hkR,
        bindLeftFold_lookup_not_mem L _ _ _ hkL]
      rfl

/-- Witness for `tokenizer_wildcard_binding`: the spec example
`tokenize("1-2-3-4", ["-"], ["A","...","B"])` yields `A = "1"`, `B = "4"`,
discards `"2"` and `"3"`, and a one-fragment input fails. -/
theorem tokenizer_wildcard_binding_witness :
    (∃ env, parseEnvs "1-2-3-4" ["-"] (["A"] ++ "..." :: ["B"]) = .ok env ∧
      goLookup env "A" = some "1" ∧ goLookup env "B" = some "4" ∧
      goLookup env "SHOW" = none) ∧
    parseEnvs "x" ["-"] (["A"] ++ "..." :: ["B"]) =
      .error ("not enough values for keys: " ++ "x") := by
  constructor
  · rcases (tokenizer_wildcard_binding "1-2-3-4" ["-"] ["A"] ["B"]
      (by decide) (by decide)).2 (by decide) (by decide) with
      ⟨env, hok, hleft, hright, hnone⟩
    refine ⟨env, hok, ?_, ?_, ?_⟩
    · have h := hleft 0 (by decide) (by decide)
      rw [show ((goSplitVals "1-2-3-4" ["-"]).getD 0 "") = "1" by decide] at h
      exact h
    · have h := hright 0 (by decide) (by decide)
      rw [show ((goSplitVals "1-2-3-4" ["-"]).getD
        ((goSplitVals "1-2-3-4" ["-"]).length - (["B"] : List String).length + 0) "")
          = "4" by decide] at h
      exact h
    · exact hnone "SHOW" (by decide) (by decide)
  · exact (tokenizer_wildcard_binding "x" ["-"] ["A"] ["B"]
      (by decide) (by decide)).1 (by decide)

/-! ## Lexical path functions (Go `path/filepath`, Unix rules)

The repository calls the standard library's `filepath.Clean` (inside
`Join` and `Dir`), `filepath.Dir`, `filepath.Base` and `filepath.Join`.
They are modelled from their documented lexical semantics: `Clean` replaces
runs of separators by a single one and eliminates `.` elements and `..`
elements together with the preceding element (a `..` at the root is
dropped, a leading `..` in a relative path is kept); `Dir` is `Clean` of
everything up to and including the final slash (`"."` when there is no
slash); `Base` strips trailing slashes and keeps the part after the last
slash; `Join` concatenates with a slash and cleans. -/

/-- `strings.Split` on the path separator. -/
def splitSlash : List Char → List (List Char)
  | [] => [[]]
  | c :: rest =>
    if c = '/' then [] :: splitSlash rest
    else
      match splitSlash rest with
      | s :: ss => (c :: s) :: ss
      | [] => [[c]]

/-- Intercalate path segments with the separator. -/
def icSlash : List (List Char) → List Char
  | [] => []
  | [x] => x
  | x :: y :: rest => x ++ '/' :: icSlash (y :: rest)

/-- One element of `Clean`'s documented processing: skip empty and `.`
segments, resolve `..` against the stack of kept segments (head = most
recent), keep every other segment. -/
def cleanStep (rooted : Bool) (stack : List (List Char)) (seg : List Char) :
    List (List Char) :=
  if seg = [] ∨ seg = ['.'] then stack
  else if seg = ['.', '.'] then
    if rooted then stack.tail
    else
      match stack with
      | [] => [seg]
      | top :: rest => if top = ['.', '.'] then seg :: top :: rest else rest
  else seg :: stack

/-- `filepath.Clean` on character lists. -/
def cleanChars (l : List Char) : List Char :=
  if l = [] then ['.']
  else
    if l.head? = some '/' then
      match icSlash (((splitSlash l).foldl (cleanStep true) []).reverse) with
      | [] => ['/']
      | body => '/' :: body
    else
      match icSlash (((splitSlash l).foldl (cleanStep false) []).reverse) with
      | [] => ['.']
      | body => body

def goClean (s : String) : String := String.mk (cleanChars s.data)

/-- Index of the first `'/'` in the list, if any. -/
def firstIdxSlash : List Char → Option Nat
  | [] => none
  | c :: rest =>
    if c = '/' then some 0
    else (firstIdxSlash rest).map (· + 1)

/-- Index just past the last `'/'` of the list (`0` when there is none):
the `path[:i+1]` bound that `filepath.Dir` cleans. -/
def lastSlashPos (l : List Char) : Nat :=
  match firstIdxSlash l.reverse with
  | none => 0
  | some k => l.length - k

/-- `filepath.Dir` on character lists. -/
def dirChars (l : List Char) : List Char := cleanChars (l.take (lastSlashPos l))

def goDir (s : String) : String := String.mk (dirChars s.data)

/-- `filepath.Base` on character lists: strip trailing slashes, then keep
everything after the last slash; the empty string gives `"."` and an
all-slash path gives `"/"`. -/
def baseChars (l : List Char) : List Char :=
  if l = [] then ['.']
  else
    match (((l.reverse.dropWhile (fun c => c = '/')).takeWhile
        (fun c => ¬ c = '/')).reverse) with
    | [] => ['/']
    | l2 => l2

def goBase (s : String) : String := String.mk (baseChars s.data)

/-- `filepath.Join` of two elements: skip empty leading elements, join with
a slash, clean. -/
def joinChars (a b : List Char) : List Char :=
  if ¬ a = [] then cleanChars (a ++ '/' :: b)
  else if ¬ b = [] then cleanChars b
  else []

def goJoin (a b : String) : String := String.mk (joinChars a.data b.data)

/-! ## Normal-form facts about the path functions (for C8) -/

/-- A plain path segment: non-empty, not `.` or `..`, no separator. -/
def plainSeg (x : List Char) : Prop :=
  ¬ x = [] ∧ ¬ x = ['.'] ∧ ¬ x = ['.', '.'] ∧ ¬ ('/' : Char) ∈ x

instance (x : List Char) : Decidable (plainSeg x) := by
  unfold plainSeg
  infer_instance

theorem splitSlash_ne_nil (l : List Char) : ¬ splitSlash l = [] := by
  induction l with
  | nil => simp [splitSlash]
  | cons c rest ih =>
    by_cases hc : c = '/'
    · simp [splitSlash, hc]
    · simp only [splitSlash, if_neg hc]
      cases hs : splitSlash rest with
      | nil => exact absurd hs ih
      | cons s ss => simp

theorem splitSlash_no_slash (x : List Char) (hx : ¬ ('/' : Char) ∈ x) :
    splitSlash x = [x] := by
  induction x with
  | nil => rfl
  | cons c x ih =>
    have hc : ¬ c = '/' := fun he => hx (he ▸ List.mem_cons_self c x)
    simp only [splitSlash, if_neg hc,
      ih (fun hm => hx (List.mem_cons_of_mem c hm))]

theorem splitSlash_append_slash (x t : List Char) (hx : ¬ ('/' : Char) ∈ x) :
    splitSlash (x ++ '/' :: t) = x :: splitSlash t := by
  induction x with
  | nil => simp [splitSlash]
  | cons c x ih =>
    have hc : ¬ c = '/' := fun he => hx (he ▸ List.mem_cons_self c x)
    have hin := ih (fun hm => hx (List.mem_cons_of_mem c hm))
    rw [List.cons_append]
    simp only [splitSlash, if_neg hc]
    rw [hin]

theorem splitSlash_ic (segs : List (List Char)) (hne : ¬ segs = [])
    (hns : ∀ x ∈ segs, ¬ ('/' : Char) ∈ x) :
    splitSlash (icSlash segs) = segs := by
  induction segs with
  | nil => exact absurd rfl hne
  | cons x segs ih =>
    cases segs with
    | nil => exact splitSlash_no_slash x (hns x (List.mem_cons_self x []))
    | cons y rest =>
      rw [icSlash, splitSlash_append_slash x _ (hns x (List.mem_cons_self x _))]
      rw [ih (by simp) (fun z hz => hns z (List.mem_cons_of_mem x hz))]

theorem splitSlash_ic_slash_tail (segs : List (List Char)) (t : List Char)
    (hne : ¬ segs = []) (hns : ∀ x ∈ segs, ¬ ('/' : Char) ∈ x) :
    splitSlash (icSlash segs ++ '/' :: t) = segs ++ splitSlash t := by
  induction segs with
  | nil => exact absurd rfl hne
  | cons x segs ih =>
    cases segs with
    | nil =>
      rw [icSlash, splitSlash_append_slash x t (hns x (List.mem_cons_self x []))]
      rfl
    | cons y rest =>
      rw [icSlash, List.append_assoc, List.cons_append]
      rw [splitSlash_append_slash x _ (hns x (List.mem_cons_self x _))]
      rw [ih (by simp) (fun z hz => hns z (List.mem_cons_of_mem x hz))]
      rfl

theorem foldl_cleanStep_plain (rooted : Bool) (segs : List (List Char))
    (hp : ∀ x ∈ segs, plainSeg x) :
    ∀ stack0, segs.foldl (cleanStep rooted) stack0 = segs.reverse ++ stack0 := by
  induction segs with
  | nil => intro stack0; rfl
  | cons x segs ih =>
    intro stack0
    rcases hp x (List.mem_cons_self x segs) with ⟨h1, h2, h3, _⟩
    have hstep : cleanStep rooted stack0 x = x :: stack0 := by
      unfold cleanStep
      rw [if_neg (by simp [h1, h2]), if_neg h3]
    rw [List.foldl_cons, hstep,
      ih (fun z hz => hp z (List.mem_cons_of_mem x hz)) (x :: stack0)]
    simp

theorem ic_ne_nil (segs : List (List Char)) (hne : ¬ segs = [])
    (hp : ∀ x ∈ segs, ¬ x = []) : ¬ icSlash segs = [] := by
  cases segs with
  | nil => exact absurd rfl hne
  | cons x segs =>
    cases segs with
    | nil => exact hp x (List.mem_cons_self x [])
    | cons y rest =>
      rw [icSlash]
      cases hx : x with
      | nil => exact absurd hx (hp x (List.mem_cons_self x _))
      | cons c cs => simp

theorem ic_append (A B : List (List Char)) (hA : ¬ A = []) (hB : ¬ B = []) :
    icSlash (A ++ B) = icSlash A ++ '/' :: icSlash B := by
  induction A with
  | nil => exact absurd rfl hA
  | cons x A ih =>
    cases A with
    | nil =>
      cases B with
      | nil => exact absurd rfl hB
      | cons y rest => rfl
    | cons x2 A2 =>
      show x ++ '/' :: icSlash ((x2 :: A2) ++ B) =
        (x ++ '/' :: icSlash (x2 :: A2)) ++ '/' :: icSlash B
      rw [ih (by simp), List.append_assoc]
      rfl

theorem cleanChars_abs (segs : List (List Char)) (hne : ¬ segs = [])
    (hp : ∀ x ∈ segs, plainSeg x) :
    cleanChars ('/' :: icSlash segs) = '/' :: icSlash segs := by
  have hns : ∀ x ∈ segs, ¬ ('/' : Char) ∈ x := fun x hx => (hp x hx).2.2.2
  have hnonempty : ∀ x ∈ segs, ¬ x = [] := fun x hx => (hp x hx).1
  unfold cleanChars
  rw [if_neg (by simp)]
  rw [if_pos (by simp)]
  have hsplit : splitSlash ('/' :: icSlash segs) = [] :: segs := by
    have h1 : splitSlash ('/' :: icSlash segs) =
        [] :: splitSlash (icSlash segs) := by
      simp [splitSlash]
    rw [h1, splitSlash_ic segs hne hns]
  rw [hsplit, List.foldl_cons]
  have h0 : cleanStep true [] [] = [] := by rfl
  rw [h0, foldl_cleanStep_plain true segs hp [], List.append_nil,
    List.reverse_reverse]
  have hicne : ¬ icSlash segs = [] := ic_ne_nil segs hne hnonempty
  cases hic : icSlash segs with
  | nil => exact absurd hic hicne
  | cons c cs => rfl

theorem cleanChars_slash : cleanChars ['/'] = ['/'] := by rfl

theorem cleanChars_abs_trailing (segs : List (List Char)) (hne : ¬ segs = [])
    (hp : ∀ x ∈ segs, plainSeg x) :
    cleanChars ('/' :: (icSlash segs ++ ['/'])) = '/' :: icSlash segs := by
  have hns : ∀ x ∈ segs, ¬ ('/' : Char) ∈ x := fun x hx => (hp x hx).2.2.2
  have hnonempty : ∀ x ∈ segs, ¬ x = [] := fun x hx => (hp x hx).1
  unfold cleanChars
  rw [if_neg (by simp)]
  rw [if_pos (by simp)]
  have hsplit : splitSlash ('/' :: (icSlash segs ++ ['/'])) =
      [] :: (segs ++ [[]]) := by
    have h1 : splitSlash ('/' :: (icSlash segs ++ ['/'])) =
        [] :: splitSlash (icSlash segs ++ ['/']) := by
      simp [splitSlash]
    have h2 : icSlash segs ++ ['/'] = icSlash segs ++ '/' :: [] := rfl
    rw [h1, h2, splitSlash_ic_slash_tail segs [] hne hns]
    rfl
  rw [hsplit, List.foldl_cons]
  have h0 : cleanStep true [] [] = [] := by rfl
  rw [h0, List.foldl_append, foldl_cleanStep_plain true segs hp []]
  have h1 : [[]].foldl (cleanStep true) (segs.reverse ++ []) =
      segs.reverse ++ [] := by rfl
  rw [h1, List.append_nil, List.reverse_reverse]
  have hicne : ¬ icSlash segs = [] := ic_ne_nil segs hne hnonempty
  cases hic : icSlash segs with
  | nil => exact absurd hic hicne
  | cons c cs => rfl

/-! ## Decomposition of `Dir`, `Base` and `Join` on normal paths (for C8) -/

theorem firstIdxSlash_no_slash (x : List Char) (hx : ¬ ('/' : Char) ∈ x) :
    firstIdxSlash x = none := by
  induction x with
  | nil => rfl
  | cons c x ih =>
    have hc : ¬ c = '/' := fun he => hx (he ▸ List.mem_cons_self c x)
    simp only [firstIdxSlash, if_neg hc,
      ih (fun hm => hx (List.mem_cons_of_mem c hm))]
    rfl

theorem firstIdxSlash_append (x t : List Char) (hx : ¬ ('/' : Char) ∈ x) :
    firstIdxSlash (x ++ '/' :: t) = some x.length := by
  induction x with
  | nil => simp [firstIdxSlash]
  | cons c x ih =>
    have hc : ¬ c = '/' := fun he => hx (he ▸ List.mem_cons_self c x)
    rw [List.cons_append]
    simp only [firstIdxSlash, if_neg hc,
      ih (fun hm => hx (List.mem_cons_of_mem c hm)), Option.map_some]
    simp

theorem lastSlashPos_decomp (X b : List Char) (hb : ¬ ('/' : Char) ∈ b)
    (_hbne : ¬ b = []) : lastSlashPos (X ++ '/' :: b) = X.length + 1 := by
  have hrev : (X ++ '/' :: b).reverse = b.reverse ++ '/' :: X.reverse := by
    rw [List.reverse_append, List.reverse_cons, List.append_assoc]
    rfl
  have hbr : ¬ ('/' : Char) ∈ b.reverse := by
    intro hm
    exact hb (List.mem_reverse.mp hm)
  unfold lastSlashPos
  rw [hrev, firstIdxSlash_append b.reverse X.reverse hbr]
  simp only [List.length_append, List.length_cons, List.length_reverse]
  omega

theorem drop_append_len {α : Type} (L t : List α) : (L ++ t).drop L.length = t := by
  induction L with
  | nil => rfl
  | cons a L ih => simp [ih]

theorem dirChars_decomp (X b : List Char) (hb : ¬ ('/' : Char) ∈ b)
    (hbne2 : ¬ b = []) : dirChars (X ++ '/' :: b) = cleanChars (X ++ ['/']) := by
  unfold dirChars
  rw [lastSlashPos_decomp X b hb hbne2]
  have h1 : X ++ '/' :: b = (X ++ ['/']) ++ b := by
    rw [List.append_assoc]
    rfl
  have h2 : X.length + 1 = (X ++ ['/']).length := by simp
  rw [h1, h2, take_append_len]

theorem takeWhile_append_stop (x : List Char) (y0 : Char) (t : List Char)
    (p : Char → Bool) (hx : ∀ c ∈ x, p c = true) (hy : ¬ p y0 = true) :
    (x ++ y0 :: t).takeWhile p = x := by
  induction x with
  | nil => simp [List.takeWhile_cons, hy]
  | cons c x ih =>
    rw [List.cons_append, List.takeWhile_cons,
      hx c (List.mem_cons_self c x),
      ih (fun d hd => hx d (List.mem_cons_of_mem c hd))]
    rfl

theorem baseChars_decomp (X b : List Char) (hb : ¬ ('/' : Char) ∈ b)
    (hbne : ¬ b = []) : baseChars (X ++ '/' :: b) = b := by
  have hlne : ¬ (X ++ '/' :: b) = [] := by simp
  have hrev : (X ++ '/' :: b).reverse = b.reverse ++ '/' :: X.reverse := by
    rw [List.reverse_append, List.reverse_cons, List.append_assoc]
    rfl
  unfold baseChars
  rw [if_neg hlne, hrev]
  have hdw : ((b.reverse ++ '/' :: X.reverse).dropWhile (fun c => c = '/')) =
      b.reverse ++ '/' :: X.reverse := by
    cases hbr : b.reverse with
    | nil =>
      exact absurd (by simpa using congrArg List.reverse hbr) hbne
    | cons c cs =>
      have hc : ¬ c = '/' := by
        intro he
        apply hb
        have : c ∈ b.reverse := by rw [hbr]; exact List.mem_cons_self c cs
        exact List.mem_reverse.mp (he ▸ this)
      rw [List.cons_append, List.dropWhile_cons]
      simp [hc]
  rw [hdw]
  have htw : ((b.reverse ++ '/' :: X.reverse).takeWhile (fun c => ¬ c = '/')) =
      b.reverse := by
    apply takeWhile_append_stop
    · intro c hc
      have : c ∈ b := List.mem_reverse.mp hc
      simp
      intro he
      exact hb (he ▸ this)
    · simp
  rw [htw, List.reverse_reverse]
  cases hbb : b with
  | nil => exact absurd hbb hbne
  | cons c cs => rfl

/-! ## The materializer (`Program.Copy`)

`Copy` iterates over the destination groups; for a directory source it
enumerates the contained files with `filepath.WalkDir` — NOTE: exactly as
in the code, the error returned by `WalkDir` is discarded, so a walk that
fails after reporting some entries contributes just those entries — and
for each (source file, sub-path) pair it stats the destination's parent
directory, creates it when absent, skips the pair when something already
exists at the destination path, and otherwise links/copies.

The source side is an oracle listing, for each directory source, the
entries `WalkDir` reports below the root (as root-relative paths, in
order; `WalkDir` itself builds each reported path by joining the root with
the relative path) together with the error, if any, that stopped the walk
after those entries.  The destination side is a mutable set of existing
files/directories plus error-injection oracles for each kind of
filesystem call. -/

structure SrcFS where
  walk : String → List (String × Bool) × Option String

structure DestFS where
  statErr : String → Option String
  lstatErr : String → Option String
  mkdirErr : String → Option String
  copyErr : String → String → Option String

structure World where
  files : List String
  dirs : List String
deriving DecidableEq

/-- Whether a stat/lstat of `p` succeeds (the path exists). -/
def existsW (w : World) (p : String) : Bool :=
  w.files.contains p || w.dirs.contains p

/-- The `subPath` map of one destination group: a plain file source maps to
its base name; a directory source contributes, for each non-directory
entry the walk reported, the joined path mapped to the byte-suffix of the
joined path after the source's parent directory (`s[len(srcDir):]`).  The
walk's terminating error is discarded, exactly as the code discards
`filepath.WalkDir`'s return value. -/
def buildSubPath (sfs : SrcFS) (srcIsDir : List (String × Bool))
    (srcs : List String) : List (String × String) :=
  srcs.foldl
    (fun sp src =>
      if (goLookup srcIsDir src).getD false then
        ((sfs.walk src).1).foldl
          (fun sp e =>
            if e.2 then sp
            else
              goInsert sp (goJoin src e.1)
                (String.mk ((goJoin src e.1).data.drop (goDir src).data.length)))
          sp
      else goInsert sp src (goBase src)) []

/-- The `os.Stat` + `os.MkdirAll` part of one pair: when the parent
directory does not exist, create it (an injected creation error is
fatal). -/
def ensureDir (dfs : DestFS) (w : World) (dDir : String) : Except String World :=
  if existsW w dDir then .ok w
  else
    match dfs.mkdirErr dDir with
    | some e => .error ("make dirs: " ++ e ++ ": " ++ dDir)
    | none => .ok { w with dirs := dDir :: w.dirs }

/-- One (source file, sub-path) pair of the materialization loop: stat the
destination's parent (non-not-found errors are fatal), create it when
absent, `Lstat` the destination (skip when it exists, non-not-found errors
are fatal), otherwise link/copy.  Returns the new world and the performed
write, if any. -/
def copyStep (dfs : DestFS) (method destDir : String) (p : String × String)
    (w : World) : Except String (World × Option (String × String)) :=
  match dfs.statErr (goDir (goJoin destDir p.2)) with
  | some e => .error (e ++ ": " ++ goDir (goJoin destDir p.2))
  | none =>
    match ensureDir dfs w (goDir (goJoin destDir p.2)) with
    | .error e => .error e
    | .ok w1 =>
      match dfs.lstatErr (goJoin destDir p.2) with
      | some e => .error (e ++ ": " ++ p.1)
      | none =>
        if existsW w1 (goJoin destDir p.2) then .ok (w1, none)
        else
          match dfs.copyErr p.1 (goJoin destDir p.2) with
          | some e => .error (method ++ " file: " ++ e)
          | none =>
            .ok ({ w1 with files := goJoin destDir p.2 :: w1.files },
              some (p.1, goJoin destDir p.2))

/-- The link/copy loop over one group's `subPath` pairs. -/
def copyPairs (dfs : DestFS) (method destDir : String) :
    List (String × String) → World →
    Except String (World × List (String × String))
  | [], w => .ok (w, [])
  | p :: rest, w =>
    match copyStep dfs method destDir p w with
    | .error e => .error e
    | .ok (w1, act) =>
      match copyPairs dfs method destDir rest w1 with
      | .error e => .error e
      | .ok (w2, log) => .ok (w2, act.toList ++ log)

/-- The fields of `Program` that `Copy` reads. -/
structure CopyProg where
  analyzed : Bool
  method : String
  srcIsDir : List (String × Bool)
  destDirSrcs : List (String × List String)

/-- The outer loop of `Copy` over the destination groups. -/
def copyGroups (dfs : DestFS) (sfs : SrcFS) (isDirM : List (String × Bool))
    (method : String) :
    List (String × List String) → World →
    Except String (World × List (String × String))
  | [], w => .ok (w, [])
  | g :: rest, w =>
    match copyPairs dfs method g.1 (buildSubPath sfs isDirM g.2) w with
    | .error e => .error e
    | .ok (w1, log1) =>
      match copyGroups dfs sfs isDirM method rest w1 with
      | .error e => .error e
      | .ok (w2, log2) => .ok (w2, log1 ++ log2)

/-- `Program.Copy`: fails when the plan is not analyzed, otherwise runs the
group loop.  Returns the final world and the ordered log of performed
(source, destination) writes. -/
def progCopy (dfs : DestFS) (sfs : SrcFS) (p : CopyProg) (w : World) :
    Except String (World × List (String × String)) :=
  if ¬ p.analyzed then .error "paths not analyzed yet"
  else copyGroups dfs sfs p.srcIsDir p.method p.destDirSrcs w

/-! ## Monotonicity and skip behaviour of the materializer (for C7) -/

/-- World extension order: the first run only ever adds paths. -/
def wle (w w2 : World) : Prop :=
  (∀ p, p ∈ w.files → p ∈ w2.files) ∧ (∀ p, p ∈ w.dirs → p ∈ w2.dirs)

theorem wle_refl (w : World) : wle w w := ⟨fun _ h => h, fun _ h => h⟩

theorem wle_trans {a b c : World} (h1 : wle a b) (h2 : wle b c) : wle a c :=
  ⟨fun p h => h2.1 p (h1.1 p h), fun p h => h2.2 p (h1.2 p h)⟩

theorem existsW_iff (w : World) (p : String) :
    existsW w p = true ↔ p ∈ w.files ∨ p ∈ w.dirs := by
  simp [existsW]

theorem existsW_mono {w w2 : World} (h : wle w w2) (p : String)
    (he : existsW w p = true) : existsW w2 p = true := by
  rw [existsW_iff] at he ⊢
  rcases he with hf | hd
  · exact Or.inl (h.1 p hf)
  · exact Or.inr (h.2 p hd)

theorem ensureDir_ok {dfs : DestFS} {w : World} {dDir : String} {w1 : World}
    (h : ensureDir dfs w dDir = .ok w1) :
    wle w w1 ∧ existsW w1 dDir = true := by
  unfold ensureDir at h
  split at h
  · cases h
    constructor
    · exact wle_refl _
    · assumption
  · split at h
    · exact Except.noConfusion h
    · cases h
      constructor
      · exact ⟨fun p hp => hp, fun p hp => List.mem_cons_of_mem _ hp⟩
      · rw [existsW_iff]
        exact Or.inr (List.mem_cons_self _ _)

theorem ensureDir_exists {dfs : DestFS} {w : World} {dDir : String}
    (hex : existsW w dDir = true) : ensureDir dfs w dDir = .ok w := by
  unfold ensureDir
  rw [if_pos hex]

theorem copyStep_ok {dfs : DestFS} {method destDir : String} {p : String × String}
    {w w1 : World} {act : Option (String × String)}
    (h : copyStep dfs method destDir p w = .ok (w1, act)) :
    wle w w1 ∧
    dfs.statErr (goDir (goJoin destDir p.2)) = none ∧
    dfs.lstatErr (goJoin destDir p.2) = none ∧
    existsW w1 (goJoin destDir p.2) = true ∧
    existsW w1 (goDir (goJoin destDir p.2)) = true := by
  unfold copyStep at h
  split at h
  · exact Except.noConfusion h
  · rename_i hse
    split at h
    · exact Except.noConfusion h
    · rename_i wmid hens
      rcases ensureDir_ok hens with ⟨hle1, hdir1⟩
      split at h
      · exact Except.noConfusion h
      · rename_i hls
        split at h
        · rename_i hex
          cases h
          exact ⟨hle1, hse, hls, hex, hdir1⟩
        · rename_i hex
          split at h
          · exact Except.noConfusion h
          · cases h
            have hle2 : wle wmid ⟨goJoin destDir p.2 :: wmid.files, wmid.dirs⟩ :=
              ⟨fun q hq => List.mem_cons_of_mem _ hq, fun q hq => hq⟩
            refine ⟨wle_trans hle1 hle2, hse, hls, ?_, ?_⟩
            · rw [existsW_iff]
              exact Or.inl (List.mem_cons_self _ _)
            · exact existsW_mono hle2 _ hdir1

theorem copyStep_skip {dfs : DestFS} {method destDir : String}
    {p : String × String} {w : World}
    (hse : dfs.statErr (goDir (goJoin destDir p.2)) = none)
    (hls : dfs.lstatErr (goJoin destDir p.2) = none)
    (hex : existsW w (goJoin destDir p.2) = true)
    (hexd : existsW w (goDir (goJoin destDir p.2)) = true) :
    copyStep dfs method destDir p w = .ok (w, none) := by
  unfold copyStep
  simp only [hse, ensureDir_exists hexd, hls, hex, eq_self_iff_true, if_true]

theorem copyPairs_ok {dfs : DestFS} {method destDir : String} :
    ∀ {pairs : List (String × String)} {w w2 : World}
      {log : List (String × String)},
    copyPairs dfs method destDir pairs w = .ok (w2, log) →
    wle w w2 ∧
    ∀ p ∈ pairs,
      dfs.statErr (goDir (goJoin destDir p.2)) = none ∧
      dfs.lstatErr (goJoin destDir p.2) = none ∧
      existsW w2 (goJoin destDir p.2) = true ∧
      existsW w2 (goDir (goJoin destDir p.2)) = true := by
  intro pairs
  induction pairs with
  | nil =>
    intro w w2 log h
    cases h
    exact ⟨wle_refl _, fun p hp => absurd hp (by simp)⟩
  | cons q rest ih =>
    intro w w2 log h
    unfold copyPairs at h
    split at h
    · exact Except.noConfusion h
    · rename_i w1 act hstep
      split at h
      · exact Except.noConfusion h
      · rename_i w2a loga htail
        cases h
        rcases copyStep_ok hstep with ⟨hle1, hse, hls, hex, hexd⟩
        rcases ih htail with ⟨hle2, hall⟩
        refine ⟨wle_trans hle1 hle2, ?_⟩
        intro p hp
        rcases List.mem_cons.mp hp with rfl | hm
        · exact ⟨hse, hls, existsW_mono hle2 _ hex, existsW_mono hle2 _ hexd⟩
        · exact hall p hm

theorem copyPairs_skip {dfs : DestFS} {method destDir : String} :
    ∀ {pairs : List (String × String)} {w : World},
    (∀ p ∈ pairs,
      dfs.statErr (goDir (goJoin destDir p.2)) = none ∧
      dfs.lstatErr (goJoin destDir p.2) = none ∧
      existsW w (goJoin destDir p.2) = true ∧
      existsW w (goDir (goJoin destDir p.2)) = true) →
    copyPairs dfs method destDir pairs w = .ok (w, []) := by
  intro pairs
  induction pairs with
  | nil => intro w _; rfl
  | cons q rest ih =>
    intro w hall
    rcases hall q (List.mem_cons_self q rest) with ⟨hse, hls, hex, hexd⟩
    unfold copyPairs
    simp only [copyStep_skip hse hls hex hexd,
      ih (fun p hp => hall p (List.mem_cons_of_mem q hp))]
    rfl

theorem copyGroups_ok {dfs : DestFS} {sfs : SrcFS} {isDirM : List (String × Bool)}
    {method : String} :
    ∀ {groups : List (String × List String)} {w w2 : World}
      {log : List (String × String)},
    copyGroups dfs sfs isDirM method groups w = .ok (w2, log) →
    wle w w2 ∧
    ∀ g ∈ groups, ∀ p ∈ buildSubPath sfs isDirM g.2,
      dfs.statErr (goDir (goJoin g.1 p.2)) = none ∧
      dfs.lstatErr (goJoin g.1 p.2) = none ∧
      existsW w2 (goJoin g.1 p.2) = true ∧
      existsW w2 (goDir (goJoin g.1 p.2)) = true := by
  intro groups
  induction groups with
  | nil =>
    intro w w2 log h
    cases h
    exact ⟨wle_refl _, fun g hg => absurd hg (by simp)⟩
  | cons g rest ih =>
    intro w w2 log h
    unfold copyGroups at h
    split at h
    · exact Except.noConfusion h
    · rename_i w1 log1 hpairs
      split at h
      · exact Except.noConfusion h
      · rename_i w2a log2 htail
        cases h
        rcases copyPairs_ok hpairs with ⟨hle1, hall1⟩
        rcases ih htail with ⟨hle2, hall2⟩
        refine ⟨wle_trans hle1 hle2, ?_⟩
        intro g2 hg2 p hp
        rcases List.mem_cons.mp hg2 with rfl | hm
        · rcases hall1 p hp with ⟨hse, hls, hex, hexd⟩
          exact ⟨hse, hls, existsW_mono hle2 _ hex, existsW_mono hle2 _ hexd⟩
        · exact hall2 g2 hm p hp

theorem copyGroups_skip {dfs : DestFS} {sfs : SrcFS} {isDirM : List (String × Bool)}
    {method : String} :
    ∀ {groups : List (String × List String)} {w : World},
    (∀ g ∈ groups, ∀ p ∈ buildSubPath sfs isDirM g.2,
      dfs.statErr (goDir (goJoin g.1 p.2)) = none ∧
      dfs.lstatErr (goJoin g.1 p.2) = none ∧
      existsW w (goJoin g.1 p.2) = true ∧
      existsW w (goDir (goJoin g.1 p.2)) = true) →
    copyGroups dfs sfs isDirM method groups w = .ok (w, []) := by
  intro groups
  induction groups with
  | nil => intro w _; rfl
  | cons g rest ih =>
    intro w hall
    unfold copyGroups
    simp only [copyPairs_skip (hall g (List.mem_cons_self g rest)),
      ih (fun g2 hg2 => hall g2 (List.mem_cons_of_mem g hg2))]
    rfl

/-! ## Claim theorems: the materializer (C3, C7) -/

/-- Source-side oracle for the C3 scenario: walking `/s/d` reports one
contained file `a` and then fails with a permission error. -/
def walkErrSfs : SrcFS :=
  ⟨fun s => if s = "/s/d" then ([("a", false)], some "permission denied")
            else ([], none)⟩

/-- Destination-side oracle with no injected errors. -/
def quietDfs : DestFS := ⟨fun _ => none, fun _ => none, fun _ => none, fun _ _ => none⟩

/-- An analyzed plan with the single directory source `/s/d` grouped under
`/dst`. -/
def walkErrProg : CopyProg := ⟨true, "link", [("/s/d", true)], [("/dst", ["/s/d"])]⟩

/-- C3 (code bug): `Copy` discards the error returned by
`filepath.WalkDir`, so an I/O failure while walking a directory source does
not abort materialization and is never surfaced: with a walk that fails
after reporting one file, `Copy` completes successfully, silently
materializing only the files discovered before the error. -/
theorem copy_ignores_walk_error :
    (walkErrSfs.walk "/s/d").2 = some "permission denied" ∧
    progCopy quietDfs walkErrSfs walkErrProg ⟨[], []⟩ =
      .ok (⟨["/dst/d/a"], ["/dst/d"]⟩, [("/s/d/a", "/dst/d/a")]) := by
  constructor
  · rfl
  · decide

/-- C7: materialization is idempotent — a file that already exists at a
destination sub-path is skipped without error and never overwritten, so
re-running `Copy` on the same plan over the world produced by a successful
run performs no writes at all (empty write log), raises no error, and
leaves the world unchanged. -/
theorem materialize_idempotent (dfs : DestFS) (sfs : SrcFS) (p : CopyProg)
    (w w2 : World) (log : List (String × String))
    (h : progCopy dfs sfs p w = .ok (w2, log)) :
    progCopy dfs sfs p w2 = .ok (w2, []) := by
  unfold progCopy at h ⊢
  split at h
  · exact Except.noConfusion h
  · rename_i han
    rw [if_neg han]
    exact copyGroups_skip (copyGroups_ok h).2

/-- Witness for `materialize_idempotent`: a concrete first run followed by
the theorem's second run. -/
theorem materialize_idempotent_witness :
    progCopy quietDfs walkErrSfs walkErrProg ⟨[], []⟩ =
      .ok (⟨["/dst/d/a"], ["/dst/d"]⟩, [("/s/d/a", "/dst/d/a")]) ∧
    progCopy quietDfs walkErrSfs walkErrProg ⟨["/dst/d/a"], ["/dst/d"]⟩ =
      .ok (⟨["/dst/d/a"], ["/dst/d"]⟩, []) := by
  constructor
  · decide
  · exact materialize_idempotent quietDfs walkErrSfs walkErrProg
      ⟨[], []⟩ ⟨["/dst/d/a"], ["/dst/d"]⟩ [("/s/d/a", "/dst/d/a")] (by decide)

/-! ## `Join`, `Dir` and `Base` on normal absolute sources (for C8) -/

theorem goJoin_norm_data (src rel : String) (segs rsegs : List (List Char))
    (hs : src.data = '/' :: icSlash segs) (hsegs : ¬ segs = [])
    (hp : ∀ x ∈ segs, plainSeg x)
    (hr : rel.data = icSlash rsegs) (hrne : ¬ rsegs = [])
    (hrp : ∀ x ∈ rsegs, plainSeg x) :
    (goJoin src rel).data = src.data ++ '/' :: rel.data := by
  show joinChars src.data rel.data = src.data ++ '/' :: rel.data
  rw [hs, hr]
  unfold joinChars
  rw [if_pos (by simp)]
  have h1 : ('/' :: icSlash segs) ++ '/' :: icSlash rsegs =
      '/' :: icSlash (segs ++ rsegs) := by
    rw [ic_append segs rsegs hsegs hrne]
    rfl
  rw [h1, cleanChars_abs (segs ++ rsegs)
    (fun hc => hsegs (List.append_eq_nil.mp hc).1)
    (fun x hx => (List.mem_append.mp hx).elim (hp x) (hrp x))]

theorem goDir_norm_data (src : String) (init : List (List Char)) (b : List Char)
    (hs : src.data = '/' :: icSlash (init ++ [b])) (hip : ∀ x ∈ init, plainSeg x)
    (hbp : plainSeg b) :
    (goDir src).data = (if init = [] then ['/'] else '/' :: icSlash init) := by
  show dirChars src.data = _
  rw [hs]
  by_cases hi : init = []
  · subst hi
    rw [if_pos rfl]
    have h0 : ('/' :: icSlash ([] ++ [b])) = [] ++ '/' :: b := rfl
    rw [h0, dirChars_decomp [] b hbp.2.2.2 hbp.1]
    rfl
  · rw [if_neg hi]
    have h1 : icSlash (init ++ [b]) = icSlash init ++ '/' :: b := by
      rw [ic_append init [b] hi (by simp)]
      rfl
    have h2 : '/' :: (icSlash init ++ '/' :: b) =
        ('/' :: icSlash init) ++ '/' :: b := rfl
    rw [h1, h2, dirChars_decomp ('/' :: icSlash init) b hbp.2.2.2 hbp.1]
    have h3 : ('/' :: icSlash init) ++ ['/'] = '/' :: (icSlash init ++ ['/']) := rfl
    rw [h3, cleanChars_abs_trailing init hi hip]

theorem goBase_norm_data (src : String) (init : List (List Char)) (b : List Char)
    (hs : src.data = '/' :: icSlash (init ++ [b])) (hbp : plainSeg b) :
    (goBase src).data = b := by
  show baseChars src.data = b
  rw [hs]
  by_cases hi : init = []
  · subst hi
    have h0 : ('/' :: icSlash ([] ++ [b])) = [] ++ '/' :: b := rfl
    rw [h0, baseChars_decomp [] b hbp.2.2.2 hbp.1]
  · have h1 : icSlash (init ++ [b]) = icSlash init ++ '/' :: b := by
      rw [ic_append init [b] hi (by simp)]
      rfl
    have h2 : '/' :: (icSlash init ++ '/' :: b) =
        ('/' :: icSlash init) ++ '/' :: b := rfl
    rw [h1, h2, baseChars_decomp ('/' :: icSlash init) b hbp.2.2.2 hbp.1]

/-! ## The per-source contribution of `buildSubPath` (for C8) -/

theorem goInsert_fresh {α : Type} (m : List (String × α)) (k : String) (v : α)
    (h : m.any (fun p => p.1 = k) = false) : goInsert m k v = m ++ [(k, v)] := by
  unfold goInsert
  rw [if_neg (by simp [h])]

theorem any_key_append {α : Type} (m1 m2 : List (String × α)) (k : String) :
    (m1 ++ m2).any (fun p => p.1 = k) =
      (m1.any (fun p => p.1 = k) || m2.any (fun p => p.1 = k)) := by
  simp [List.any_append]

theorem bsp_entries_fold (src : String) :
    ∀ (entries : List (String × Bool)) (sp : List (String × String)),
    (∀ e ∈ entries, e.2 = false →
      sp.any (fun q => q.1 = goJoin src e.1) = false) →
    (((entries.filter (fun e => ¬ e.2)).map (fun e => goJoin src e.1)).Nodup) →
    entries.foldl
      (fun sp e =>
        if e.2 then sp
        else goInsert sp (goJoin src e.1)
          (String.mk ((goJoin src e.1).data.drop (goDir src).data.length))) sp =
    sp ++ (entries.filter (fun e => ¬ e.2)).map
      (fun e => (goJoin src e.1,
        String.mk ((goJoin src e.1).data.drop (goDir src).data.length))) := by
  intro entries
  induction entries with
  | nil => intro sp _ _; simp
  | cons e rest ih =>
    intro sp hfresh hnd
    by_cases he : e.2 = true
    · have hf : (List.filter (fun e => decide ¬ e.2 = true) (e :: rest)) =
          List.filter (fun e => decide ¬ e.2 = true) rest := by
        rw [List.filter_cons]
        simp [he]
      rw [List.foldl_cons, if_pos he]
      rw [hf] at hnd ⊢
      exact ih sp (fun e2 h2 hf2 => hfresh e2 (List.mem_cons_of_mem e h2) hf2) hnd
    · have he' : e.2 = false := by
        cases hee : e.2
        · rfl
        · exact absurd hee he
      have hf : (List.filter (fun e => decide ¬ e.2 = true) (e :: rest)) =
          e :: List.filter (fun e => decide ¬ e.2 = true) rest := by
        rw [List.filter_cons]
        simp [he']
      rw [List.foldl_cons, if_neg he]
      rw [hf] at hnd
      rw [hf]
      rw [goInsert_fresh sp (goJoin src e.1) _
        (hfresh e (List.mem_cons_self e rest) he')]
      rw [List.map_cons] at hnd
      rcases List.nodup_cons.mp hnd with ⟨hnotin, hnd2⟩
      have hfresh2 : ∀ e2 ∈ rest, e2.2 = false →
          (sp ++ [(goJoin src e.1,
            String.mk ((goJoin src e.1).data.drop (goDir src).data.length))]).any
            (fun q => q.1 = goJoin src e2.1) = false := by
        intro e2 h2 hf2
        rw [any_key_append]
        have h1 : sp.any (fun q => q.1 = goJoin src e2.1) = false :=
          hfresh e2 (List.mem_cons_of_mem e h2) hf2
        have h2ne : ¬ goJoin src e.1 = goJoin src e2.1 := by
          intro heq
          apply hnotin
          rw [heq]
          apply List.mem_map_of_mem
          rw [List.mem_filter]
          exact ⟨h2, by simp [hf2]⟩
        simp [h1, h2ne]
      rw [ih _ hfresh2 hnd2, List.map_cons, List.append_assoc]
      rfl

/-! ## Claim theorems: materialization structure (C8) -/

/-- C8 (amended): for a destination group source, `buildSubPath`
contributes exactly one pair per contained non-directory file when the
source is a directory in clean absolute form (no trailing slash, no `.`,
`..` or empty segments): each walked file (in clean relative form) is keyed
by the joined path and mapped to the suffix of that path after the
directory's parent, so `Dir(src) ++ sub` is the joined path — the sub-path
is the file's path relative to the *parent* of the directory source — and
the sub-path is the directory's own base name (after an optional leading
slash) followed by the file's relative path, never flattening the
hierarchy; a plain (non-directory) source contributes exactly one pair
mapping to its own base name.  A trailing-slash directory source violates
the base-name property (see the counterexample). -/
theorem materialize_structure (sfs : SrcFS) (isDirM : List (String × Bool))
    (src : String) (segs : List (List Char))
    (hs : src.data = '/' :: icSlash segs) (hsegs : ¬ segs = [])
    (hp : ∀ x ∈ segs, plainSeg x)
    (hfe : ∀ e ∈ (sfs.walk src).1, e.2 = false →
      ∃ rsegs, ¬ rsegs = [] ∧ (∀ x ∈ rsegs, plainSeg x) ∧
        e.1.data = icSlash rsegs)
    (hnd : (((sfs.walk src).1.filter (fun e => ¬ e.2)).map
      (fun e => e.1)).Nodup) :
    ((goLookup isDirM src).getD false = false →
      buildSubPath sfs isDirM [src] = [(src, goBase src)]) ∧
    ((goLookup isDirM src).getD false = true →
      buildSubPath sfs isDirM [src] =
        ((sfs.walk src).1.filter (fun e => ¬ e.2)).map
          (fun e => (goJoin src e.1,
            String.mk ((goJoin src e.1).data.drop (goDir src).data.length))) ∧
      ∀ e ∈ (sfs.walk src).1.filter (fun e => ¬ e.2),
        (goDir src).data ++
            ((goJoin src e.1).data.drop (goDir src).data.length) =
          (goJoin src e.1).data ∧
        (((goJoin src e.1).data.drop (goDir src).data.length) =
            (goBase src).data ++ '/' :: e.1.data ∨
          ((goJoin src e.1).data.drop (goDir src).data.length) =
            '/' :: ((goBase src).data ++ '/' :: e.1.data))) := by
  have hmemfile : ∀ e ∈ (sfs.walk src).1.filter (fun e => ¬ e.2),
      e ∈ (sfs.walk src).1 ∧ e.2 = false := by
    intro e he
    rcases List.mem_filter.mp he with ⟨h1, h2⟩
    refine ⟨h1, ?_⟩
    cases hee : e.2
    · rfl
    · rw [hee] at h2
      exact absurd h2 (by simp)
  have hjoinrel : ∀ r ∈ ((sfs.walk src).1.filter (fun e => ¬ e.2)).map
      (fun e => e.1), (goJoin src r).data = src.data ++ '/' :: r.data := by
    intro r hr
    rcases List.mem_map.mp hr with ⟨e, he, rfl⟩
    rcases hmemfile e he with ⟨h1, h2⟩
    rcases hfe e h1 h2 with ⟨rsegs, hrne, hrp, hrd⟩
    exact goJoin_norm_data src e.1 segs rsegs hs hsegs hp hrd hrne hrp
  have hjoin : ∀ e ∈ (sfs.walk src).1.filter (fun e => ¬ e.2),
      (goJoin src e.1).data = src.data ++ '/' :: e.1.data := by
    intro e he
    exact hjoinrel e.1 (List.mem_map_of_mem (fun e => e.1) he)
  constructor
  · intro h
    simp only [buildSubPath, List.foldl_cons, List.foldl_nil, h,
      Bool.false_eq_true, if_false]
    simp [goInsert]
  · intro hd
    have hndJ : (((sfs.walk src).1.filter (fun e => ¬ e.2)).map
        (fun e => goJoin src e.1)).Nodup := by
      have hinj : ∀ r1 ∈ ((sfs.walk src).1.filter (fun e => ¬ e.2)).map
          (fun e => e.1),
          ∀ r2 ∈ ((sfs.walk src).1.filter (fun e => ¬ e.2)).map
          (fun e => e.1),
          goJoin src r1 = goJoin src r2 → r1 = r2 := by
        intro r1 h1 r2 h2 heq
        have hd1 := hjoinrel r1 h1
        have hd2 := hjoinrel r2 h2
        apply string_eq_of_data
        have h3 : src.data ++ '/' :: r1.data = src.data ++ '/' :: r2.data := by
          rw [← hd1, ← hd2, heq]
        have h4 := List.append_cancel_left h3
        injection h4
      have h5 := List.Nodup.map_on hinj hnd
      rw [List.map_map] at h5
      exact h5
    constructor
    · unfold buildSubPath
      rw [List.foldl_cons, List.foldl_nil, if_pos hd]
      rw [bsp_entries_fold src (sfs.walk src).1 [] (fun _ _ _ => rfl) hndJ]
      rw [List.nil_append]
    · intro e he
      have hj := hjoin e he
      have hdecomp : segs.dropLast ++ [segs.getLast hsegs] = segs :=
        List.dropLast_append_getLast hsegs
      have hs2 : src.data =
          '/' :: icSlash (segs.dropLast ++ [segs.getLast hsegs]) := by
        rw [hdecomp]
        exact hs
      have hip : ∀ x ∈ segs.dropLast, plainSeg x := by
        intro x hx
        apply hp
        rw [← hdecomp]
        exact List.mem_append_left _ hx
      have hbp : plainSeg (segs.getLast hsegs) :=
        hp _ (List.getLast_mem hsegs)
      have hdir := goDir_norm_data src segs.dropLast (segs.getLast hsegs)
        hs2 hip hbp
      have hbase := goBase_norm_data src segs.dropLast (segs.getLast hsegs)
        hs2 hbp
      by_cases hi : segs.dropLast = []
      · rw [if_pos hi] at hdir
        have hsrc2 : src.data = '/' :: segs.getLast hsegs := by
          rw [hs2, hi]
          rfl
        constructor
        · rw [hj, hdir, hsrc2]
          rfl
        · left
          rw [hj, hdir, hbase, hsrc2]
          rfl
      · rw [if_neg hi] at hdir
        have hsrc2 : src.data =
            ('/' :: icSlash segs.dropLast) ++ '/' :: segs.getLast hsegs := by
          rw [hs2, ic_append segs.dropLast [segs.getLast hsegs] hi (by simp)]
          rfl
        constructor
        · rw [hj, hdir, hsrc2, List.append_assoc, drop_append_len]
        · right
          rw [hj, hdir, hbase, hsrc2, List.append_assoc, drop_append_len]
          rfl

/-- Source-side oracle whose every walk reports the single file `c`. -/
def flatSfs : SrcFS := ⟨fun _ => ([("c", false)], none)⟩

/-- C8 (counterexample): for the trailing-slash directory source
`"/a/b/"`, `Dir` yields the directory itself (`"/a/b"`), not its parent,
so the contained file `c` receives sub-path `"/c"`: the directory's own
base name `"b"` is not preserved as a leading segment and the source's
top level is flattened. -/
theorem materialize_structure_cex :
    buildSubPath flatSfs [("/a/b/", true)] ["/a/b/"] = [("/a/b/c", "/c")] ∧
    goBase "/a/b/" = "b" ∧
    ¬ goHasPrefix "/c" (goBase "/a/b/" ++ "/") = true ∧
    ¬ goHasPrefix "/c" ("/" ++ goBase "/a/b/" ++ "/") = true := by
  refine ⟨?_, ?_, ?_, ?_⟩ <;> decide

/-- Witness for `materialize_structure`: the clean directory source
`"/a/b"` materializes its file `c` under `"/b/c"` — parent-relative, with
the base name `b` leading — and a plain file source maps to its base
name. -/
theorem materialize_structure_witness :
    buildSubPath flatSfs [("/a/b", true)] ["/a/b"] = [("/a/b/c", "/b/c")] ∧
    buildSubPath flatSfs [("/x", false)] ["/x"] = [("/x", goBase "/x")] := by
  have hfe : ∀ e ∈ (flatSfs.walk "/a/b").1, e.2 = false →
      ∃ rsegs, ¬ rsegs = [] ∧ (∀ x ∈ rsegs, plainSeg x) ∧
        e.1.data = icSlash rsegs := by
    intro e he _hf
    have he2 : e = ("c", false) := by simpa [flatSfs] using he
    subst he2
    exact ⟨[['c']], by decide, by decide, by decide⟩
  have hfe2 : ∀ e ∈ (flatSfs.walk "/x").1, e.2 = false →
      ∃ rsegs, ¬ rsegs = [] ∧ (∀ x ∈ rsegs, plainSeg x) ∧
        e.1.data = icSlash rsegs := by
    intro e he _hf
    have he2 : e = ("c", false) := by simpa [flatSfs] using he
    subst he2
    exact ⟨[['c']], by decide, by decide, by decide⟩
  constructor
  · have h := (materialize_structure flatSfs [("/a/b", true)] "/a/b"
      [['a'], ['b']] (by decide) (by decide) (by decide) hfe (by decide)).2
      (by decide)
    rw [h.1]
    decide
  · exact (materialize_structure flatSfs [("/x", false)] "/x" [['x']]
      (by decide) (by decide) (by decide) hfe2 (by decide)).1 (by decide)

/-! ## The analyzer (`Program.AnalyzeInput`, `Program.ParseEnvsFromSrc`)

`AnalyzeInput` extracts candidate paths from the input text, stats them,
sorts the existing ones, and for each source tokenizes it, injects the
run's date stamp, resolves the destination directory and groups the source
under it.  Filesystem I/O (`os.Stat` on sources and destinations, the
`fs.WalkDir` file count of a directory source) is modeled by oracles. -/

/-- The configuration fields of `Program` that `AnalyzeInput` reads. -/
structure ProgCfg where
  pathSeps : List String
  pathKeys : List String
  nameSeps : List String
  nameKeys : List String
  destPattern : String
deriving DecidableEq

/-- Outcome of an `os.Stat` call: success (with the `IsDir` bit),
`ErrNotExist`, or any other error (its message). -/
inductive StatRes where
  | ok (isDir : Bool)
  | notExist
  | err (msg : String)
deriving DecidableEq

/-- Filesystem oracle for the analysis phase: `os.Stat` on candidate
sources, `os.Stat` on resolved destination directories, and the result of
one `fs.WalkDir` file count over a directory source (the number of files
one walk adds to `SrcDirFileCount`, or the error the walk returns). -/
structure AnalyzeFS where
  stat : String → StatRes
  destStat : String → StatRes
  countWalk : String → Except String Nat

/-- `Program.ParseEnvsFromSrc`: tokenize the whole path with the path
separators/keys, then the base name with the name separators/keys, and
copy both result maps into a fresh map, name entries after path entries.
(Go ranges over each map in unspecified order; since each map's keys are
distinct, any order yields the same final map under lookup, and insertion
in list order is one admissible order.) -/
def parseEnvsFromSrc (cfg : ProgCfg) (src : String) :
    Except String (List (String × String)) :=
  match parseEnvs src cfg.pathSeps cfg.pathKeys with
  | .error e => .error e
  | .ok pathEnv =>
    match parseEnvs (goBase src) cfg.nameSeps cfg.nameKeys with
    | .error e => .error e
    | .ok nameEnv =>
      .ok (nameEnv.foldl (fun m p => goInsert m p.1 p.2)
        (pathEnv.foldl (fun m p => goInsert m p.1 p.2) []))

/-- `strings.Replace(text, "\r\n", "\n", -1)`: replace the non-overlapping
occurrences left to right. -/
def stripCRChars : List Char → List Char
  | [] => []
  | '\r' :: '\n' :: t => '\n' :: stripCRChars t
  | c :: t => c :: stripCRChars t

/-- `strings.Split(text, "\n")` (on the empty string it yields one empty
piece, matching Go). -/
def splitLinesChars : List Char → List (List Char)
  | [] => [[]]
  | '\n' :: t => [] :: splitLinesChars t
  | c :: t =>
    match splitLinesChars t with
    | [] => [[c]]
    | l :: ls => (c :: l) :: ls

/-- `strings.TrimPrefix`. -/
def goTrimPrefix (s pre : String) : String :=
  if goHasPrefix s pre then String.mk (s.data.drop pre.data.length) else s

/-- Path extraction (`AnalyzeInput` lines 440–449): normalize CRLF, split
into lines, strip a `file://` prefix and keep the lines that start with
`/`. -/
def extractPaths (text : String) : List String :=
  ((splitLinesChars (stripCRChars text.data)).map
    (fun l => goTrimPrefix (String.mk l) "file://")).filter
    (fun l => goHasPrefix l "/")

/-- The stat pass (lines 453–465): trim each candidate, stat it; a
non-`ErrNotExist` stat error is fatal (`"%v: %s"`), `ErrNotExist` records
the path in `NotExists`, success records it in `Srcs` and its `IsDir` bit
in `SrcIsDir`.  (The map is built by inserting later entries first; since
`stat` is a function of the path, duplicate paths get the same bit and the
map is the same under lookup as Go's in-order insertion.) -/
def statPhase (fs : AnalyzeFS) :
    List String → Except String (List String × List String × List (String × Bool))
  | [] => .ok ([], [], [])
  | p :: t =>
    match fs.stat (goTrimSpace p) with
    | .err m => .error (m ++ ": " ++ goTrimSpace p)
    | .notExist =>
      match statPhase fs t with
      | .error e => .error e
      | .ok (ne, srcs, m) => .ok (goTrimSpace p :: ne, srcs, m)
    | .ok d =>
      match statPhase fs t with
      | .error e => .error e
      | .ok (ne, srcs, m) =>
        .ok (ne, goTrimSpace p :: srcs, goInsert m (goTrimSpace p) d)

/-- Lexicographic order on code points (the order of Go byte-wise string
comparison, since UTF-8 preserves code-point order). -/
def strLtB : List Char → List Char → Bool
  | [], [] => false
  | [], _ :: _ => true
  | _ :: _, [] => false
  | a :: as, b :: bs =>
    if a.toNat < b.toNat then true
    else if b.toNat < a.toNat then false
    else strLtB as bs

/-- Insertion into a sorted list. -/
def insertSorted (x : String) : List String → List String
  | [] => [x]
  | y :: t => if strLtB x.data y.data then x :: y :: t else y :: insertSorted x t

/-- `sort.Strings`: insertion sort.  (Go's sort is a different algorithm,
but a sorted permutation of a list of strings is unique as a list — equal
elements are identical — so the results coincide.) -/
def sortStrings : List String → List String
  | [] => []
  | x :: t => insertSorted x (sortStrings t)

/-- The analysis state accumulated by the per-source loop (the `Program`
fields rebuilt on every `AnalyzeInput` call). -/
structure AnState where
  invalids : List String
  srcDirFileCount : List (String × Nat)
  destDir : List (String × String)
  destDirSrcs : List (String × List String)
  destDirExists : List (String × Bool)
deriving DecidableEq

/-- The directory-source file-count step (lines 480–501): walk a directory
source and add the walked file count; a walk error is fatal. -/
def countStep (fs : AnalyzeFS) (srcIsDir : List (String × Bool))
    (fc : List (String × Nat)) (src : String) :
    Except String (List (String × Nat)) :=
  if (goLookup srcIsDir src).getD false then
    match fs.countWalk src with
    | .error e => .error e
    | .ok n => .ok (goInsert fc src ((goLookup fc src).getD 0 + n))
  else .ok fc

/-- The destination-existence cache step (lines 502–513): stat the
resolved destination once per distinct destination; a non-`ErrNotExist`
error is fatal (`"%v: %s"` with the *source* path). -/
def destExistsStep (fs : AnalyzeFS) (de : List (String × Bool))
    (dd src : String) : Except String (List (String × Bool)) :=
  match goLookup de dd with
  | some _ => .ok de
  | none =>
    match fs.destStat dd with
    | .err m => .error (m ++ ": " ++ src)
    | .notExist => .ok (goInsert de dd false)
    | .ok _ => .ok (goInsert de dd true)

/-- One iteration of the per-source loop (lines 468–520): tokenize (a
failure is returned, aborting the batch), inject `DATE` after the merge,
resolve the destination (a failure marks the source invalid and
continues), then count files, cache destination existence, record the
destination and append the source to its destination group. -/
def processSrc (cfg : ProgCfg) (fs : AnalyzeFS) (today : String)
    (srcIsDir : List (String × Bool)) (st : AnState) (src : String) :
    Except String AnState :=
  match parseEnvsFromSrc cfg src with
  | .error e => .error e
  | .ok env0 =>
    match destDirectory src cfg.destPattern (goInsert env0 "DATE" today) with
    | .error e =>
      .ok ⟨st.invalids ++ [src ++ " (" ++ e ++ ")"], st.srcDirFileCount,
        st.destDir, st.destDirSrcs, st.destDirExists⟩
    | .ok dd =>
      match countStep fs srcIsDir st.srcDirFileCount src with
      | .error e => .error e
      | .ok fc =>
        match destExistsStep fs st.destDirExists dd src with
        | .error e => .error e
        | .ok de =>
          .ok ⟨st.invalids, fc, goInsert st.destDir src dd,
            goInsert st.destDirSrcs dd
              ((goLookup st.destDirSrcs dd).getD [] ++ [src]), de⟩

/-- The per-source loop over the sorted sources. -/
def analyzeFold (cfg : ProgCfg) (fs : AnalyzeFS) (today : String)
    (srcIsDir : List (String × Bool)) :
    AnState → List String → Except String AnState
  | st, [] => .ok st
  | st, s :: t =>
    match processSrc cfg fs today srcIsDir st s with
    | .error e => .error e
    | .ok st2 => analyzeFold cfg fs today srcIsDir st2 t

/-- The analysis result (the `Program` fields `AnalyzeInput` filled in). -/
structure Plan where
  notExists : List String
  srcs : List String
  srcIsDir : List (String × Bool)
  state : AnState
  today : String
deriving DecidableEq

/-- `Program.AnalyzeInput(text)` (with the run's date stamp `today`
standing for `time.Now().Format("060102")`). -/
def analyzeInput (cfg : ProgCfg) (fs : AnalyzeFS) (today text : String) :
    Except String Plan :=
  match statPhase fs (extractPaths text) with
  | .error e => .error e
  | .ok (ne, srcs0, isDirM) =>
    match analyzeFold cfg fs today isDirM ⟨[], [], [], [], []⟩
        (sortStrings srcs0) with
    | .error e => .error e
    | .ok st => .ok ⟨ne, sortStrings srcs0, isDirM, st, today⟩

/-- The resolution outcome of one source, recomputed purely: tokenize,
then resolve with `DATE` inserted after the merge (exactly what the loop
body computes before its filesystem steps). -/
def resolvedDest (cfg : ProgCfg) (today src : String) : Except String String :=
  match parseEnvsFromSrc cfg src with
  | .error e => .error e
  | .ok env0 => destDirectory src cfg.destPattern (goInsert env0 "DATE" today)

/-- Invariant of the per-source loop, for processed sources `P`: group
keys are distinct; group members point back to their key through
`DestDir`; every `DestDir` entry is in its key's group, belongs to `P`,
and matches the pure resolution outcome; and every processed source that
resolves successfully has its `DestDir` entry. -/
def AInv (cfg : ProgCfg) (today : String) (P : List String) (st : AnState) :
    Prop :=
  (st.destDirSrcs.map (fun p => p.1)).Nodup ∧
  (∀ d l, goLookup st.destDirSrcs d = some l →
    ∀ s ∈ l, goLookup st.destDir s = some d) ∧
  (∀ s d, goLookup st.destDir s = some d →
    ∃ l, goLookup st.destDirSrcs d = some l ∧ s ∈ l) ∧
  (∀ s d, goLookup st.destDir s = some d →
    s ∈ P ∧ resolvedDest cfg today s = .ok d) ∧
  (∀ s ∈ P, ∀ d, resolvedDest cfg today s = .ok d →
    goLookup st.destDir s = some d)

/-! ## Facts feeding the analyzer claims -/

theorem expandAux_nil (env : List (String × String)) (fuel : Nat) (unk : String) :
    goExpandAux env fuel [] unk = ([], unk) := by
  cases fuel <;> rfl

/-- Resolving the pattern `${DATE}` against an environment that maps
`DATE` yields exactly that value (for an absolute source). -/
theorem destDirectory_date (s today : String) (env : List (String × String))
    (habs : goHasPrefix s "/" = true)
    (hl : goLookup env "DATE" = some today) :
    destDirectory s "${DATE}" env = .ok today := by
  have hexp : goExpand env (goTrimSpace "${DATE}") = (today.data, "") := by
    show goExpandAux env 8 "${DATE}".data "" = (today.data, "")
    have h1 : goExpandAux env 8 "${DATE}".data "" =
        (match goLookup env "DATE" with
         | some v => (v.data ++ [], "")
         | none => ([], "$DATE")) := rfl
    rw [h1, hl]
    simp
  unfold destDirectory
  rw [if_neg (show ¬¬(goHasPrefix s "/" = true) from fun hc => hc habs), hexp,
    if_neg (show ¬¬((today.data, "").2 = "") from fun hc => hc rfl)]

theorem dropWhile_keep_last (A : List Char) :
    ∃ B, (A ++ ['/']).dropWhile goIsSpace = B ++ ['/'] := by
  induction A with
  | nil => exact ⟨[], by decide⟩
  | cons a A ih =>
    by_cases h : goIsSpace a = true
    · simpa [List.dropWhile_cons, h] using ih
    · exact ⟨a :: A, by simp [List.dropWhile_cons, h]⟩

/-- Trimming preserves a leading `/` (it is not white space). -/
theorem goTrimSpace_slash (p : String) (h : goHasPrefix p "/" = true) :
    goHasPrefix (goTrimSpace p) "/" = true := by
  obtain ⟨t, ht⟩ := List.isPrefixOf_iff_prefix.mp h
  have ht2 : p.data = '/' :: t := by rw [← ht]; rfl
  have hsp : goIsSpace '/' = false := by decide
  have h3 : p.data.dropWhile goIsSpace = '/' :: t := by
    rw [ht2, List.dropWhile_cons, hsp]
    simp
  obtain ⟨B, hB⟩ := dropWhile_keep_last t.reverse
  unfold goHasPrefix goTrimSpace
  rw [h3, List.reverse_cons, hB, List.reverse_append]
  show List.isPrefixOf ['/'] ('/' :: B.reverse) = true
  exact List.isPrefixOf_iff_prefix.mpr ⟨B.reverse, rfl⟩

theorem insertSorted_mem (x y : String) (l : List String) :
    y ∈ insertSorted x l ↔ y = x ∨ y ∈ l := by
  induction l with
  | nil => simp [insertSorted]
  | cons z t ih =>
    by_cases h : strLtB x.data z.data = true
    · simp [insertSorted, h]
    · simp only [insertSorted, h, Bool.false_eq_true, if_false, List.mem_cons,
        ih, Bool.not_eq_true] 
      tauto

theorem sortStrings_mem (x : String) (l : List String) :
    x ∈ sortStrings l ↔ x ∈ l := by
  induction l with
  | nil => simp [sortStrings]
  | cons y t ih => simp [sortStrings, insertSorted_mem, ih]

/-- The stat pass classifies: `NotExists` entries stat to `ErrNotExist`,
`Srcs` entries stat successfully, and every recorded path is the trimmed
form of some candidate. -/
theorem statPhase_classify (fs : AnalyzeFS) :
    ∀ (paths ne srcs : List String) (m : List (String × Bool)),
      statPhase fs paths = .ok (ne, srcs, m) →
      (∀ s ∈ ne, fs.stat s = .notExist) ∧
      (∀ s ∈ srcs, (∃ b, fs.stat s = .ok b) ∧
        ∃ p ∈ paths, s = goTrimSpace p) := by
  intro paths
  induction paths with
  | nil =>
    intro ne srcs m h
    simp only [statPhase, Except.ok.injEq, Prod.mk.injEq] at h
    obtain ⟨h1, h2, h3⟩ := h
    subst h1
    subst h2
    exact ⟨fun s hs => absurd hs (List.not_mem_nil s),
      fun s hs => absurd hs (List.not_mem_nil s)⟩
  | cons p t ih =>
    intro ne srcs m h
    simp only [statPhase] at h
    cases hs : fs.stat (goTrimSpace p) with
    | err m' => simp only [hs] at h; exact Except.noConfusion h
    | notExist =>
      simp only [hs] at h
      cases hrec : statPhase fs t with
      | error e => simp only [hrec] at h; exact Except.noConfusion h
      | ok tr =>
        obtain ⟨ne', srcs', m'⟩ := tr
        simp only [hrec, Except.ok.injEq, Prod.mk.injEq] at h
        obtain ⟨h1, h2, h3⟩ := h
        subst h1
        subst h2
        obtain ⟨ih1, ih2⟩ := ih ne' srcs' m' hrec
        constructor
        · intro s hsm
          rcases List.mem_cons.mp hsm with rfl | hm
          · exact hs
          · exact ih1 s hm
        · intro s hsm
          obtain ⟨hb, q, hq, he⟩ := ih2 s hsm
          exact ⟨hb, q, List.mem_cons_of_mem p hq, he⟩
    | ok d =>
      simp only [hs] at h
      cases hrec : statPhase fs t with
      | error e => simp only [hrec] at h; exact Except.noConfusion h
      | ok tr =>
        obtain ⟨ne', srcs', m'⟩ := tr
        simp only [hrec, Except.ok.injEq, Prod.mk.injEq] at h
        obtain ⟨h1, h2, h3⟩ := h
        subst h1
        subst h2
        obtain ⟨ih1, ih2⟩ := ih ne' srcs' m' hrec
        constructor
        · exact ih1
        · intro s hsm
          rcases List.mem_cons.mp hsm with rfl | hm
          · exact ⟨⟨d, hs⟩, p, List.mem_cons_self p t, rfl⟩
          · obtain ⟨hb, q, hq, he⟩ := ih2 s hm
            exact ⟨hb, q, List.mem_cons_of_mem p hq, he⟩

/-- One loop iteration preserves the grouping invariant, extending the
processed set by the handled source. -/
theorem processSrc_inv (cfg : ProgCfg) (fs : AnalyzeFS) (today : String)
    (isDirM : List (String × Bool)) (st : AnState) (src : String)
    (st2 : AnState) (P : List String) (hI : AInv cfg today P st)
    (h : processSrc cfg fs today isDirM st src = .ok st2) :
    AInv cfg today (P ++ [src]) st2 := by
  obtain ⟨hA, hB, hC, hD, hE⟩ := hI
  unfold processSrc at h
  cases hpe : parseEnvsFromSrc cfg src with
  | error e => simp only [hpe] at h; exact Except.noConfusion h
  | ok env0 =>
    simp only [hpe] at h
    have hres : resolvedDest cfg today src =
        destDirectory src cfg.destPattern (goInsert env0 "DATE" today) := by
      unfold resolvedDest
      rw [hpe]
    cases hdd : destDirectory src cfg.destPattern (goInsert env0 "DATE" today) with
    | error e =>
      simp only [hdd] at h
      have hst2 : st2 = ⟨st.invalids ++ [src ++ " (" ++ e ++ ")"],
          st.srcDirFileCount, st.destDir, st.destDirSrcs, st.destDirExists⟩ :=
        (Except.ok.inj h).symm
      subst hst2
      refine ⟨hA, hB, hC, ?_, ?_⟩
      · intro s d hl
        obtain ⟨hmem, hr⟩ := hD s d hl
        exact ⟨List.mem_append_left _ hmem, hr⟩
      · intro s hs d hr
        rcases List.mem_append.mp hs with hs1 | hs2
        · exact hE s hs1 d hr
        · have hseq : s = src := List.mem_singleton.mp hs2
          subst hseq
          rw [hres, hdd] at hr
          exact Except.noConfusion hr
    | ok dd =>
      simp only [hdd] at h
      have hres2 : resolvedDest cfg today src = .ok dd := by rw [hres]; exact hdd
      cases hfc : countStep fs isDirM st.srcDirFileCount src with
      | error e => simp only [hfc] at h; exact Except.noConfusion h
      | ok fc =>
        simp only [hfc] at h
        cases hde : destExistsStep fs st.destDirExists dd src with
        | error e => simp only [hde] at h; exact Except.noConfusion h
        | ok de =>
          simp only [hde] at h
          have hst2 : st2 = ⟨st.invalids, fc, goInsert st.destDir src dd,
              goInsert st.destDirSrcs dd
                ((goLookup st.destDirSrcs dd).getD [] ++ [src]), de⟩ :=
            (Except.ok.inj h).symm
          subst hst2
          refine ⟨?_, ?_, ?_, ?_, ?_⟩
          · exact goInsert_keys_nodup _ _ _ hA
          · intro d l hl s hs
            by_cases hdeq : d = dd
            · subst hdeq
              rw [goLookup_goInsert_self] at hl
              have hl2 : l = (goLookup st.destDirSrcs d).getD [] ++ [src] :=
                (Option.some.inj hl).symm
              subst hl2
              rcases List.mem_append.mp hs with hs1 | hs2
              · cases hold : goLookup st.destDirSrcs d with
                | none =>
                  rw [hold] at hs1
                  exact absurd hs1 (List.not_mem_nil s)
                | some lold =>
                  rw [hold] at hs1
                  have hds : goLookup st.destDir s = some d :=
                    hB d lold hold s hs1
                  by_cases hseq : s = src
                  · subst hseq
                    exact goLookup_goInsert_self _ _ _
                  · rw [goLookup_goInsert_ne _ _ _ _ hseq]
                    exact hds
              · have hseq : s = src := List.mem_singleton.mp hs2
                subst hseq
                exact goLookup_goInsert_self _ _ _
            · rw [goLookup_goInsert_ne _ _ _ _ hdeq] at hl
              have hds := hB d l hl s hs
              by_cases hseq : s = src
              · subst hseq
                have hcontra := (hD s d hds).2
                rw [hres2] at hcontra
                exact absurd (Except.ok.inj hcontra).symm hdeq
              · rw [goLookup_goInsert_ne _ _ _ _ hseq]
                exact hds
          · intro s d hl
            by_cases hseq : s = src
            · subst hseq
              rw [goLookup_goInsert_self] at hl
              have hdeq : dd = d := Option.some.inj hl
              subst hdeq
              exact ⟨(goLookup st.destDirSrcs dd).getD [] ++ [s],
                goLookup_goInsert_self _ _ _,
                List.mem_append_right _ (List.mem_singleton_self _)⟩
            · rw [goLookup_goInsert_ne _ _ _ _ hseq] at hl
              obtain ⟨l, hlk, hsl⟩ := hC s d hl
              by_cases hdeq : d = dd
              · subst hdeq
                refine ⟨(goLookup st.destDirSrcs d).getD [] ++ [src],
                  goLookup_goInsert_self _ _ _, ?_⟩
                rw [hlk]
                exact List.mem_append_left _ hsl
              · exact ⟨l, by rw [goLookup_goInsert_ne _ _ _ _ hdeq]; exact hlk,
                  hsl⟩
          · intro s d hl
            by_cases hseq : s = src
            · subst hseq
              rw [goLookup_goInsert_self] at hl
              have hdeq : dd = d := Option.some.inj hl
              subst hdeq
              exact ⟨List.mem_append_right _ (List.mem_singleton_self _), hres2⟩
            · rw [goLookup_goInsert_ne _ _ _ _ hseq] at hl
              obtain ⟨hm, hr⟩ := hD s d hl
              exact ⟨List.mem_append_left _ hm, hr⟩
          · intro s hs d hr
            by_cases hseq : s = src
            · subst hseq
              rw [hres2] at hr
              have hdeq : dd = d := Except.ok.inj hr
              subst hdeq
              exact goLookup_goInsert_self _ _ _
            · have hs1 : s ∈ P := by
                rcases List.mem_append.mp hs with h1 | h2
                · exact h1
                · exact absurd (List.mem_singleton.mp h2) hseq
              rw [goLookup_goInsert_ne _ _ _ _ hseq]
              exact hE s hs1 d hr

/-- The loop preserves the invariant over any suffix of sources. -/
theorem analyzeFold_inv (cfg : ProgCfg) (fs : AnalyzeFS) (today : String)
    (isDirM : List (String × Bool)) :
    ∀ (srcs P : List String) (st st2 : AnState), AInv cfg today P st →
      analyzeFold cfg fs today isDirM st srcs = .ok st2 →
      AInv cfg today (P ++ srcs) st2 := by
  intro srcs
  induction srcs with
  | nil =>
    intro P st st2 hI h
    have hst : st = st2 := Except.ok.inj h
    subst hst
    simpa using hI
  | cons s t ih =>
    intro P st st2 hI h
    simp only [analyzeFold] at h
    cases hp : processSrc cfg fs today isDirM st s with
    | error e => simp only [hp] at h; exact Except.noConfusion h
    | ok st1 =>
      simp only [hp] at h
      have hstep := processSrc_inv cfg fs today isDirM st s st1 P hI hp
      have := ih (P ++ [s]) st1 st2 hstep h
      rw [List.append_assoc] at this
      exact this

/-- A successful loop run tokenized every source it processed. -/
theorem analyzeFold_tokenized (cfg : ProgCfg) (fs : AnalyzeFS) (today : String)
    (isDirM : List (String × Bool)) :
    ∀ (srcs : List String) (st st2 : AnState),
      analyzeFold cfg fs today isDirM st srcs = .ok st2 →
      ∀ src ∈ srcs, ∃ env, parseEnvsFromSrc cfg src = .ok env := by
  intro srcs
  induction srcs with
  | nil => intro st st2 h src hsrc; exact absurd hsrc (List.not_mem_nil src)
  | cons s t ih =>
    intro st st2 h src hsrc
    simp only [analyzeFold] at h
    cases hp : processSrc cfg fs today isDirM st s with
    | error e => simp only [hp] at h; exact Except.noConfusion h
    | ok st1 =>
      simp only [hp] at h
      rcases List.mem_cons.mp hsrc with rfl | hm
      · unfold processSrc at hp
        cases hpe : parseEnvsFromSrc cfg src with
        | error e => simp only [hpe] at hp; exact Except.noConfusion hp
        | ok env => exact ⟨env, rfl⟩
      · exact ih st1 st2 h src hm

/-- A successful analysis yields the run's date stamp, the grouping
invariant over exactly the planned sources, stat facts for the
classified paths, and tokenization success of every source. -/
theorem analyzeInput_shape (cfg : ProgCfg) (fs : AnalyzeFS)
    (today text : String) (plan : Plan)
    (h : analyzeInput cfg fs today text = .ok plan) :
    plan.today = today ∧
    AInv cfg today plan.srcs plan.state ∧
    (∀ s ∈ plan.srcs, (∃ b, fs.stat s = .ok b) ∧
      ∃ p ∈ extractPaths text, s = goTrimSpace p) ∧
    (∀ s ∈ plan.notExists, fs.stat s = .notExist) ∧
    (∀ src ∈ plan.srcs, ∃ env, parseEnvsFromSrc cfg src = .ok env) := by
  unfold analyzeInput at h
  cases hsp : statPhase fs (extractPaths text) with
  | error e => simp only [hsp] at h; exact Except.noConfusion h
  | ok tr =>
    obtain ⟨ne, srcs0, isDirM⟩ := tr
    simp only [hsp] at h
    cases hf : analyzeFold cfg fs today isDirM ⟨[], [], [], [], []⟩
        (sortStrings srcs0) with
    | error e => simp only [hf] at h; exact Except.noConfusion h
    | ok st =>
      simp only [hf] at h
      have hplan : plan = ⟨ne, sortStrings srcs0, isDirM, st, today⟩ :=
        (Except.ok.inj h).symm
      subst hplan
      have hcl := statPhase_classify fs (extractPaths text) ne srcs0 isDirM hsp
      have hI0 : AInv cfg today [] ⟨[], [], [], [], []⟩ := by
        refine ⟨by simp, ?_, ?_, ?_, ?_⟩
        · intro d l hl
          exact Option.noConfusion hl
        · intro s d hl
          exact Option.noConfusion hl
        · intro s d hl
          exact Option.noConfusion hl
        · intro s hs
          exact absurd hs (List.not_mem_nil s)
      have hInv := analyzeFold_inv cfg fs today isDirM (sortStrings srcs0) []
        _ st hI0 hf
      refine ⟨rfl, by simpa using hInv, ?_, hcl.1, ?_⟩
      · intro s hs
        have hs0 : s ∈ srcs0 := (sortStrings_mem s srcs0).mp hs
        exact hcl.2 s hs0
      · intro src hsrc
        exact analyzeFold_tokenized cfg fs today isDirM (sortStrings srcs0)
          _ st hf src hsrc

/-! ## Claim theorems: the analyzer (C1, C6, C10) -/

/-- Example configuration: two path keys, no separator consumption issues
in the name pass (its key list is just the wildcard divider). -/
def exCfg : ProgCfg := ⟨["-"], ["A", "B"], ["-"], ["..."], "/d"⟩

/-- Example filesystem: every source exists (as a file), destinations do
not exist yet. -/
def exFS : AnalyzeFS := ⟨fun _ => .ok false, fun _ => .notExist, fun _ => .ok 0⟩

/-- C1 (counterexample): both candidate paths exist and `/a-b` would
tokenize fine, but the tokenization failure on `/x` (fragment/key count
mismatch) aborts the whole analysis with that error — `/x` is not
classified invalid, no other path is processed into a plan, and no plan is
returned. -/
theorem analysis_tokenize_fatal_cex :
    analyzeInput exCfg exFS "251011" "/x\n/a-b" =
      .error "not enough values for keys: /x" ∧
    parseEnvs "/x" ["-"] ["A", "B"] =
      .error "not enough values for keys: /x" ∧
    parseEnvsFromSrc exCfg "/a-b" = .ok [("A", "/a"), ("B", "b")] := by
  refine ⟨by decide, by decide, by decide⟩

/-- C1 (amended): a tokenization failure on a source is fatal, not
recoverable per-path — `AnalyzeInput` returns the error, so when analysis
does return a plan, every planned source tokenized successfully (the
invalid list holds only destination-resolution failures). -/
theorem analysis_tokenize_fatal (cfg : ProgCfg) (fs : AnalyzeFS)
    (today text : String) (plan : Plan)
    (h : analyzeInput cfg fs today text = .ok plan) :
    ∀ src ∈ plan.srcs, ∃ env, parseEnvsFromSrc cfg src = .ok env :=
  (analyzeInput_shape cfg fs today text plan h).2.2.2.2

/-- Witness for `analysis_tokenize_fatal`: a batch whose single path
tokenizes analyzes successfully, and the theorem yields that tokenization
success. -/
theorem analysis_tokenize_fatal_witness :
    ∃ env, parseEnvsFromSrc exCfg "/a-b" = .ok env :=
  analysis_tokenize_fatal exCfg exFS "251011" "/a-b"
    ⟨[], ["/a-b"], [("/a-b", false)],
      ⟨[], [], [("/a-b", "/d")], [("/d", ["/a-b"])], [("/d", false)]⟩,
      "251011"⟩
    (by decide) "/a-b" (by decide)

/-- C6: the grouping invariant of a successful analysis — group keys are
distinct; a source in a group resolved to exactly that group's key (so it
is in exactly one group); a source has a recorded destination exactly when
it is a planned (existing) source whose resolution succeeded; and
not-found paths have no destination, hence are in no group. -/
theorem analysis_grouping (cfg : ProgCfg) (fs : AnalyzeFS)
    (today text : String) (plan : Plan)
    (h : analyzeInput cfg fs today text = .ok plan) :
    (plan.state.destDirSrcs.map (fun p => p.1)).Nodup ∧
    (∀ d l, goLookup plan.state.destDirSrcs d = some l →
      ∀ s ∈ l, goLookup plan.state.destDir s = some d) ∧
    (∀ s d, goLookup plan.state.destDir s = some d →
      ∃ l, goLookup plan.state.destDirSrcs d = some l ∧ s ∈ l) ∧
    (∀ s d, goLookup plan.state.destDir s = some d ↔
      s ∈ plan.srcs ∧ resolvedDest cfg plan.today s = .ok d) ∧
    (∀ s d1 l1 d2 l2, goLookup plan.state.destDirSrcs d1 = some l1 → s ∈ l1 →
      goLookup plan.state.destDirSrcs d2 = some l2 → s ∈ l2 → d1 = d2) ∧
    (∀ s ∈ plan.notExists, goLookup plan.state.destDir s = none) := by
  obtain ⟨htoday, hInv, hsrcs, hne, -⟩ :=
    analyzeInput_shape cfg fs today text plan h
  subst htoday
  obtain ⟨hA, hB, hC, hD, hE⟩ := hInv
  refine ⟨hA, hB, hC, ?_, ?_, ?_⟩
  · intro s d
    constructor
    · exact fun hl => hD s d hl
    · rintro ⟨hs, hr⟩
      exact hE s hs d hr
  · intro s d1 l1 d2 l2 h1 hs1 h2 hs2
    have e1 := hB d1 l1 h1 s hs1
    have e2 := hB d2 l2 h2 s hs2
    rw [e1] at e2
    exact Option.some.inj e2
  · intro s hs
    cases hl : goLookup plan.state.destDir s with
    | none => rfl
    | some d =>
      have hmem := (hD s d hl).1
      obtain ⟨b, hb⟩ := (hsrcs s hmem).1
      have hnex := hne s hs
      rw [hnex] at hb
      exact StatRes.noConfusion hb

/-- Configuration whose destination pattern uses a path-pass variable. -/
def c6Cfg : ProgCfg := ⟨["-"], ["V", "..."], ["-"], ["..."], "/d/${V}"⟩

/-- Filesystem where `/nope` does not exist and everything else is a
file. -/
def c6FS : AnalyzeFS :=
  ⟨fun s => if s = "/nope" then .notExist else .ok false,
   fun _ => .notExist, fun _ => .ok 0⟩

/-- The plan the analysis of `/a-1`, `/a-2`, `/nope` produces. -/
def c6plan : Plan :=
  ⟨["/nope"], ["/a-1", "/a-2"], [("/a-2", false), ("/a-1", false)],
    ⟨[], [], [("/a-1", "/d//a"), ("/a-2", "/d//a")],
      [("/d//a", ["/a-1", "/a-2"])], [("/d//a", false)]⟩, "251011"⟩

/-- Witness for `analysis_grouping`: two existing sources resolve to the
same destination and share one group; the not-found path is in none. -/
theorem analysis_grouping_witness :
    (c6plan.state.destDirSrcs.map (fun p => p.1)).Nodup ∧
    goLookup c6plan.state.destDir "/a-1" = some "/d//a" ∧
    goLookup c6plan.state.destDir "/nope" = none := by
  have h := analysis_grouping c6Cfg c6FS "251011" "/a-1\n/a-2\n/nope" c6plan
    (by decide)
  refine ⟨h.1, ?_, h.2.2.2.2.2 "/nope" (by decide)⟩
  exact (h.2.2.2.1 "/a-1" "/d//a").mpr ⟨by decide, by decide⟩

/-- C10: `DATE` is written into the merged environment after the path-pass
and name-pass results, so the run's date stamp overwrites any tokenized
`DATE`, and resolving the pattern `${DATE}` records the same `today` as
the destination of every planned source. -/
theorem analysis_date_stamp (cfg : ProgCfg) (fs : AnalyzeFS)
    (today text : String) (plan : Plan)
    (h : analyzeInput cfg fs today text = .ok plan) :
    plan.today = today ∧
    ∀ s ∈ plan.srcs, ∀ env0, parseEnvsFromSrc cfg s = .ok env0 →
      goLookup (goInsert env0 "DATE" today) "DATE" = some today ∧
      (cfg.destPattern = "${DATE}" →
        goLookup plan.state.destDir s = some today) := by
  obtain ⟨htoday, hInv, hsrcs, -, -⟩ :=
    analyzeInput_shape cfg fs today text plan h
  refine ⟨htoday, ?_⟩
  intro s hs env0 henv
  refine ⟨goLookup_goInsert_self _ _ _, ?_⟩
  intro hpat
  obtain ⟨p, hpmem, hsp⟩ := (hsrcs s hs).2
  have habs0 : goHasPrefix p "/" = true := (List.mem_filter.mp hpmem).2
  have habs : goHasPrefix s "/" = true := by
    rw [hsp]
    exact goTrimSpace_slash p habs0
  have hdd : destDirectory s cfg.destPattern (goInsert env0 "DATE" today) =
      .ok today := by
    rw [hpat]
    exact destDirectory_date s today _ habs (goLookup_goInsert_self _ _ _)
  have hres : resolvedDest cfg today s = .ok today := by
    unfold resolvedDest
    rw [henv]
    exact hdd
  exact hInv.2.2.2.2 s hs today hres

/-- Configuration whose both tokenizer passes bind `DATE` and whose
destination pattern is the date stamp itself. -/
def c10Cfg : ProgCfg := ⟨["-"], ["_", "DATE"], ["-"], ["_", "DATE"], "${DATE}"⟩

/-- Filesystem where every source exists as a file. -/
def c10FS : AnalyzeFS := ⟨fun _ => .ok false, fun _ => .notExist, fun _ => .ok 0⟩

/-- The plan the analysis of `/x-990101` produces: the destination is the
run's stamp, not the tokenized `990101`. -/
def c10plan : Plan :=
  ⟨[], ["/x-990101"], [("/x-990101", false)],
    ⟨[], [], [("/x-990101", "251011")], [("251011", ["/x-990101"])],
      [("251011", false)]⟩, "251011"⟩

/-- Witness for `analysis_date_stamp`: both tokenizer passes extract
`DATE := "990101"` from `/x-990101`, yet the recorded destination is the
run's stamp `"251011"`. -/
theorem analysis_date_stamp_witness :
    parseEnvsFromSrc c10Cfg "/x-990101" = .ok [("DATE", "990101")] ∧
    goLookup (goInsert [("DATE", "990101")] "DATE" "251011") "DATE" =
      some "251011" ∧
    goLookup c10plan.state.destDir "/x-990101" = some "251011" := by
  have h := (analysis_date_stamp c10Cfg c10FS "251011" "/x-990101" c10plan
    (by decide)).2 "/x-990101" (by decide) [("DATE", "990101")] (by decide)
  exact ⟨by decide, h.1, h.2 (by decide)⟩

end Takein
